import Mathlib

/-!
# Verification of diva (`src/diva/__main__.py`)

A shallow embedding of the resolution-and-activation engine of the `diva`
version manager, together with proofs about the claims of its specification.

Paths are modelled as POSIX path strings (`os.sep = "/"`), and the filesystem
as an association list from path strings to nodes.  Python string operations
used by the source (`split`, slicing, `startswith`, `os.path.join`,
`os.path.commonpath`, `os.path.dirname`) are embedded as functions on the
character data of Lean strings.
-/

set_option autoImplicit false

namespace Diva

/-! ## String and path primitives (POSIX semantics, mirroring `posixpath`) -/

/-- Python `s.startswith(pre)`: `pre` is a prefix of `s`. -/
def strStartsWith (s pre : String) : Bool :=
  pre.data.isPrefixOf s.data

/-- Python `s.endswith(suf)`: `suf` is a suffix of `s`. -/
def strEndsWith (s suf : String) : Bool :=
  suf.data.isSuffixOf s.data

/-- Python slicing `s[n:]` (drop the first `n` characters). -/
def strDrop (s : String) (n : Nat) : String :=
  String.mk (s.data.drop n)

/-- Auxiliary for `strContains`: is `n` an infix of `h`? -/
def isInfixCh (n : List Char) : List Char → Bool
  | [] => n.isPrefixOf []
  | c :: rest => n.isPrefixOf (c :: rest) || isInfixCh n rest

/-- Python `needle in hay` for strings (substring containment). -/
def strContains (hay needle : String) : Bool :=
  isInfixCh needle.data hay.data

/-- Python `s.split("/")` on character lists: splits at every `'/'`,
keeping empty fragments.  Never returns the empty list. -/
def splitSlashChars : List Char → List (List Char)
  | [] => [[]]
  | c :: rest =>
    match splitSlashChars rest with
    | [] => [[]]
    | h :: t => if c = '/' then [] :: h :: t else (c :: h) :: t

/-- Python `s.split("/")`. -/
def splitSlash (s : String) : List String :=
  (splitSlashChars s.data).map String.mk

/-- Python `"/".join(l)`. -/
def joinSep : List String → String
  | [] => ""
  | [a] => a
  | a :: rest => a ++ "/" ++ joinSep rest

/-- `posixpath.join(a, b)`: if `b` is absolute it wins; otherwise insert a
separator unless `a` is empty or already ends with one. -/
def osJoin2 (a b : String) : String :=
  if strStartsWith b "/" then b
  else if a = "" ∨ strEndsWith a "/" then a ++ b
  else a ++ "/" ++ b

/-- `os.path.join(a, b, c)`. -/
def osJoin3 (a b c : String) : String :=
  osJoin2 (osJoin2 a b) c

/-- Index of the last `'/'` in a character list, if any
(Python `p.rfind("/")` when the result is non-negative). -/
def lastSlashIdx : List Char → Option Nat
  | [] => none
  | c :: rest =>
    match lastSlashIdx rest with
    | some i => some (i + 1)
    | none => if c = '/' then some 0 else none

/-- Python `head.rstrip("/")` on character lists. -/
def dropTrailingSlashes (l : List Char) : List Char :=
  ((l.reverse.dropWhile (fun c => c = '/')).reverse)

/-- `posixpath.dirname` on character lists: everything up to and including the
last separator, with trailing separators stripped unless the head is all
separators. -/
def dirnameChars (l : List Char) : List Char :=
  match lastSlashIdx l with
  | none => []
  | some i =>
    let head := l.take (i + 1)
    if head.all (fun c => c = '/') then head else dropTrailingSlashes head

/-- `os.path.dirname`. -/
def dirnameStr (s : String) : String :=
  String.mk (dirnameChars s.data)

/-- The path components `posixpath.commonpath` works with: split on `"/"`,
dropping empty components and `"."`. -/
def comp (s : String) : List String :=
  (splitSlash s).filter (fun c => c ≠ "" && c ≠ ".")

/-- Longest common prefix of two component lists (for two paths this is what
`posixpath.commonpath`'s min/max comparison computes). -/
def commonPrefixList : List String → List String → List String
  | a :: t₁, b :: t₂ => if a = b then a :: commonPrefixList t₁ t₂ else []
  | _, _ => []

/-- `os.path.commonpath([p1, p2])`: raises `ValueError` when one path is
absolute and the other relative; otherwise the joined common components,
prefixed by `/` for absolute paths. -/
def commonpath2 (p1 p2 : String) : Except String String :=
  if strStartsWith p1 "/" ≠ strStartsWith p2 "/" then
    Except.error "ValueError: Cant mix absolute and relative paths"
  else
    Except.ok ((if strStartsWith p1 "/" then "/" else "")
      ++ joinSep (commonPrefixList (comp p1) (comp p2)))

/-! ## Filesystem model

A filesystem is an association list from absolute POSIX path strings to nodes.
Lookup returns the first entry for a key; newly created entries are consed to
the front.  A symlink stores its target string verbatim, exactly as
`os.symlink` records it and `os.readlink` returns it; a dangling (broken)
link is simply a `symlink` node whose target string is not a key of the map. -/

/-- A filesystem node: directory, regular file, or symbolic link. -/
inductive Node
  | dir
  | file
  | symlink (target : String)
deriving DecidableEq, Repr

/-- The filesystem: a map from path to node, as an association list. -/
def FS := List (String × Node)

instance : DecidableEq FS := by unfold FS; infer_instance

/-- First entry for a path, if any (the node `lstat` would see). -/
def FS.find : FS → String → Option Node
  | [], _ => none
  | (k, n) :: rest, p => if k = p then some n else FS.find rest p

/-- Remove every entry at exactly this path (`os.unlink` on the model). -/
def FS.removeKey : FS → String → FS
  | [], _ => []
  | (k, n) :: rest, p =>
    if k = p then FS.removeKey rest p else (k, n) :: FS.removeKey rest p

/-- `shutil.rmtree(p, ignore_errors=True)`: drop the path and everything
below it. -/
def FS.rmtree : FS → String → FS
  | [], _ => []
  | (k, n) :: rest, p =>
    if k = p ∨ strStartsWith k (p ++ "/") then FS.rmtree rest p
    else (k, n) :: FS.rmtree rest p

/-- `os.path.islink(p)`: the node at `p` is a symlink (no following). -/
def islink (fs : FS) (p : String) : Bool :=
  match FS.find fs p with
  | some (Node.symlink _) => true
  | _ => false

/-- `os.path.exists` with explicit fuel for following symlink chains
(a chain longer than the map, i.e. a loop, behaves like `ELOOP`: `False`). -/
def existsFuel (fs : FS) : Nat → String → Bool
  | 0, _ => false
  | fuel + 1, p =>
    match FS.find fs p with
    | none => false
    | some (Node.symlink t) => existsFuel fs fuel t
    | some _ => true

/-- `os.path.exists(p)`: the path resolves to an existing object. -/
def existsF (fs : FS) (p : String) : Bool :=
  existsFuel fs (fs.length + 1) p

/-- `os.makedirs(p)`: create `p` and (recursively) its missing parents.
Fuel bounds the recursion on `dirname`. -/
def makedirs (fs : FS) : Nat → String → FS
  | 0, p => (p, Node.dir) :: fs
  | fuel + 1, p =>
    let head := dirnameStr p
    let fs' := if head ≠ "" ∧ ¬ existsF fs head then makedirs fs fuel head else fs
    (p, Node.dir) :: fs'

/-! ## Installation store and activation manager -/

/-- The closed set of managed applications (`DIVA_APPS`). -/
def DIVA_APPS : List String := ["dmd", "ldc", "dub"]

/-- `get_install_path(home, app, version)`:
`os.path.join(home, "programs", "%s-%s" % (app, version))`. -/
def get_install_path (home app version : String) : String :=
  osJoin3 home "programs" (app ++ "-" ++ version)

/-- `disuse_app(home, app, logger)`: unlink `bin/<app>` and `lib/<app>` when
they are symlinks; report which were unlinked.  Pure state-passing rendering
of the mutation. -/
def disuse_app (fs : FS) (home app : String) : FS × Bool × Bool :=
  let bin_path := osJoin3 home "bin" app
  let bin_unlinked := islink fs bin_path
  let fs₁ := if islink fs bin_path then FS.removeKey fs bin_path else fs
  let lib_path := osJoin3 home "lib" app
  let lib_unlinked := islink fs₁ lib_path
  let fs₂ := if islink fs₁ lib_path then FS.removeKey fs₁ lib_path else fs₁
  (fs₂, bin_unlinked, lib_unlinked)

/-- `get_active_version(home, app)`: read the `bin/<app>` link, require its
target to share `home` as `commonpath`, and parse
`programs/<app>-<version>` out of the remainder.  `Except.error` models an
uncaught Python exception (`os.path.commonpath` raises `ValueError` when one
of the two paths is absolute and the other relative). -/
def get_active_version (fs : FS) (home app : String) : Except String (Option String) :=
  match FS.find fs (osJoin3 home "bin" app) with
  | some (Node.symlink target) =>
    match commonpath2 home target with
    | Except.error e => Except.error e
    | Except.ok common =>
      if common ≠ home then Except.ok none
      else
        match splitSlash (strDrop target (1 + common.length)) with
        | p0 :: p1 :: _ =>
          if p0 ≠ "programs" then Except.ok none
          else if ¬ strStartsWith p1 (app ++ "-") then Except.ok none
          else Except.ok (some (strDrop p1 (app.length + 1)))
        | _ => Except.ok none
  | _ => Except.ok none

/-! ## Application resolver: installation layout

Python values flowing out of `get_*_installation_paths` are `None`, strings,
or (due to a slip in the `0.x` branch of the dmd resolver, which returns
`os.path.exists(...)` results) booleans.  `PyVal` captures exactly these. -/

/-- A Python value that may be `None`, a string, or a boolean. -/
inductive PyVal
  | none
  | str (s : String)
  | bool (b : Bool)
deriving DecidableEq, Repr

/-- Python truthiness of a `PyVal`. -/
def PyVal.truthy : PyVal → Bool
  | PyVal.none => false
  | PyVal.str s => s ≠ ""
  | PyVal.bool b => b

/-- `get_dmd_installation_paths`: probe the historical dmd layouts.
The `0.x` branch returns the results of `os.path.exists` — booleans, not
paths — exactly as the source does.  `system` is `platform.system()` and
`is64` is `get_platform_is_64_bit()`. -/
def get_dmd_installation_paths (fs : FS) (system : String) (is64 : Bool)
    (_home _app _version install_path : String) : PyVal × PyVal :=
  if existsF fs (osJoin2 install_path "dmd/bin") then
    (PyVal.bool (existsF fs (osJoin2 install_path "dmd/bin")),
     PyVal.bool (existsF fs (osJoin2 install_path "dmd/lib")))
  else
    let dmd_root := osJoin2 install_path "dmd"
    let dmd2_root := osJoin2 install_path "dmd2"
    let root := if existsF fs dmd_root then dmd_root else dmd2_root
    let platformRoot : Option String :=
      if system = "Windows" then some (osJoin2 root "windows")
      else if system = "Darwin" then some (osJoin2 root "osx")
      else if system = "Linux" then some (osJoin2 root "linux")
      else Option.none
    match platformRoot with
    | Option.none => (PyVal.none, PyVal.none)
    | some proot =>
      let binx := osJoin2 proot "bin"
      let bin64 := osJoin2 proot "bin64"
      let bin32 := osJoin2 proot "bin32"
      let libx := osJoin2 proot "lib"
      let lib64 := osJoin2 proot "lib64"
      let lib32 := osJoin2 proot "lib32"
      let binary_path :=
        if is64 ∧ existsF fs bin64 then bin64
        else if existsF fs bin32 then bin32
        else binx
      let library_path :=
        if is64 ∧ existsF fs lib64 then lib64
        else if existsF fs lib32 then lib32
        else libx
      (PyVal.str binary_path, PyVal.str library_path)

/-- The name of `key` as a directory entry of `p`, when `key` is an immediate
child path of `p` (entry names are never empty, never contain `/`, and
`os.scandir` never yields `.` or `..`). -/
def childName (p key : String) : Option String :=
  if strStartsWith key (p ++ "/") then
    if strDrop key (p.length + 1) ≠ "" ∧ ('/' ∉ (strDrop key (p.length + 1)).data)
        ∧ strDrop key (p.length + 1) ≠ "." ∧ strDrop key (p.length + 1) ≠ ".."
      then some (strDrop key (p.length + 1))
    else Option.none
  else Option.none

/-- The first subdirectory yielded for `p` by `os.walk(p)`'s first tuple;
enumeration order is the order of the association list. -/
def firstSubdir : FS → String → Option String
  | [], _ => Option.none
  | (k, Node.dir) :: rest, p =>
    match childName p k with
    | some n => some n
    | Option.none => firstSubdir rest p
  | _ :: rest, p => firstSubdir rest p

/-- `get_dub_installation_paths`: descend into the first extracted
subdirectory (or stay at the root) and use its `bin`; no library path. -/
def get_dub_installation_paths (fs : FS)
    (home app version _install_path : String) : PyVal × PyVal :=
  let install_path := get_install_path home app version
  let src_dir_path :=
    match firstSubdir fs install_path with
    | some n => osJoin2 install_path n
    | Option.none => install_path
  (PyVal.str (osJoin2 src_dir_path "bin"), PyVal.none)

/-- `get_ldc_installation_paths`: like dub, but with both `bin` and `lib`. -/
def get_ldc_installation_paths (fs : FS)
    (home app version _install_path : String) : PyVal × PyVal :=
  let install_path := get_install_path home app version
  let src_dir_path :=
    match firstSubdir fs install_path with
    | some n => osJoin2 install_path n
    | Option.none => install_path
  (PyVal.str (osJoin2 src_dir_path "bin"), PyVal.str (osJoin2 src_dir_path "lib"))

/-- `get_app_installation_paths`: dispatch on the application name. -/
def get_app_installation_paths (fs : FS) (system : String) (is64 : Bool)
    (home app version install_path : String) : PyVal × PyVal :=
  if app = "dmd" then
    get_dmd_installation_paths fs system is64 home app version install_path
  else if app = "dub" then
    get_dub_installation_paths fs home app version install_path
  else if app = "ldc" then
    get_ldc_installation_paths fs home app version install_path
  else (PyVal.none, PyVal.none)

/-! ## Activation -/

/-- One symlink-creation block of `use_app_version`: skipped when the path
value is falsy; `os.makedirs` for a missing parent; `os.symlink` raises
`FileExistsError` when something already sits at the link path and
`TypeError` when the source is not path-like (the boolean case). -/
def mkLink (fs : FS) (home sub app : String) (target : PyVal) : Except String FS :=
  if ¬ target.truthy then Except.ok fs
  else
    match target with
    | PyVal.str s =>
      let symlink_path := osJoin3 home sub app
      let parent := dirnameStr symlink_path
      let fs₁ := if ¬ existsF fs parent then makedirs fs parent.length parent else fs
      if (FS.find fs₁ symlink_path).isSome then Except.error "FileExistsError"
      else Except.ok ((symlink_path, Node.symlink s) :: fs₁)
    | _ => Except.error "TypeError: symlink src must be string"

/-- `use_app_version(home, app, version, logger)`: require the installation
directory; resolve the layout; (the `chmod` walk touches permissions only and
never raises — `os.walk` swallows `OSError` — so it does not appear in the
node map); tear down previous links via `disuse_app`; create fresh links.
Returns `False` when not installed, `True` otherwise; `Except.error` is an
uncaught Python exception. -/
def use_app_version (fs : FS) (system : String) (is64 : Bool)
    (home app version : String) : Except String (FS × Bool) :=
  if ¬ existsF fs (get_install_path home app version) then Except.ok (fs, false)
  else
    match mkLink (disuse_app fs home app).1 home "bin" app
        (get_app_installation_paths fs system is64 home app version
          (get_install_path home app version)).1 with
    | Except.error e => Except.error e
    | Except.ok fs₂ =>
      match mkLink fs₂ home "lib" app
          (get_app_installation_paths fs system is64 home app version
            (get_install_path home app version)).2 with
      | Except.error e => Except.error e
      | Except.ok fs₃ => Except.ok (fs₃, true)

/-- `diva_uninstall` with the interactive confirmation already resolved to
the boolean `confirmed` (`args.yes or prompt_confirm(...)`).  Returns the
resulting filesystem and the explicit return code when one is executed
(the fall-through end of the Python function returns `None`). -/
def diva_uninstall (fs : FS) (home app version : String) (confirmed : Bool) :
    Except String (FS × Option Nat) :=
  if ¬ existsF fs (get_install_path home app version) then Except.ok (fs, some 1)
  else if ¬ confirmed then Except.ok (fs, some 0)
  else
    match get_active_version fs home app with
    | Except.error e => Except.error e
    | Except.ok active_version =>
      Except.ok (FS.rmtree
        (if active_version = some version then (disuse_app fs home app).1 else fs)
        (get_install_path home app version), Option.none)

/-! ## Download manager -/

/-- An HTTP response: status code and the number of body bytes that a full
streaming read writes to disk. -/
structure HttpResponse where
  status : Nat
  body : Nat
deriving DecidableEq, Repr

/-- The network, as a map from URL to response. -/
def Net := String → HttpResponse

/-- `download_file(path, url, silent)`: `0` unless the status is in the
success range, else the number of bytes written (the sum of the streamed
chunk lengths). -/
def download_file (net : Net) (url : String) : Nat :=
  let response := net url
  if ¬ (200 ≤ response.status ∧ response.status < 300) then 0
  else response.body

/-- The candidate loop of `diva_install`: try each URL in order, stop at the
first attempt whose `download_file` result is truthy (nonzero).  Returns the
list of URLs actually requested and the winning URL with its byte count
(`none` when every candidate failed, which `diva_install` turns into the
return code `1`). -/
def attempt_downloads (net : Net) : List String → List String × Option (String × Nat)
  | [] => ([], Option.none)
  | url :: rest =>
    if download_file net url ≠ 0 then ([url], some (url, download_file net url))
    else (url :: (attempt_downloads net rest).1, (attempt_downloads net rest).2)

/-! ## Remote version listing -/

/-- `get_github_list(base_url)`: request pages of size 100 starting at the
given page number, accumulate the entries, and stop after the first page
with fewer than 100 entries.  The remote source is the map `pages` from page
number to entries; the result pairs the requested page numbers with the
aggregated entries.  `fuel` bounds the loop (the Python `while True` loop
does not terminate on a source that never sends a short page). -/
def get_github_list {α : Type} (pages : Nat → List α) :
    Nat → Nat → List Nat × List α
  | 0, _ => ([], [])
  | fuel + 1, page_number =>
    if (pages page_number).length < 100 then ([page_number], pages page_number)
    else (page_number :: (get_github_list pages fuel (page_number + 1)).1,
      pages page_number ++ (get_github_list pages fuel (page_number + 1)).2)

/-! ## Download URL resolution -/

/-- `get_dmd_url_suffixes()`: per-OS archive suffixes.  The unsupported-OS
branch executes `raise None`, which in Python 3 raises
`TypeError: exceptions must derive from BaseException`. -/
def get_dmd_url_suffixes (system : String) : Except String (List String) :=
  if system = "Windows" then Except.ok [".windows.zip", ".zip"]
  else if system = "Darwin" then Except.ok [".osx.zip", ".zip"]
  else if system = "Linux" then Except.ok [".linux.zip", ".zip"]
  else Except.error "TypeError: exceptions must derive from BaseException"

/-- Result of a download-URL helper: normally a list of URLs, but the dead
`if not suffixes` branch of `get_dmd_download_urls` returns the integer 1. -/
inductive DlVal
  | urls (urls : List String)
  | code (n : Nat)
deriving DecidableEq, Repr

/-- `get_dmd_download_urls`: suffixes (propagating the unsupported-OS
exception), then candidate URLs under the release archive for the version's
major line (`version[0] + ".x"` when `version[1] == "."`, else `0.x`). -/
def get_dmd_download_urls (system version : String) : Except String DlVal :=
  match get_dmd_url_suffixes system with
  | Except.error e => Except.error e
  | Except.ok suffixes =>
    if suffixes.isEmpty then Except.ok (DlVal.code 1)
    else
      let download_url_x :=
        match version.data with
        | c :: '.' :: _ => String.mk [c] ++ ".x"
        | _ => "0.x"
      let download_url_base :=
        "http://downloads.dlang.org/releases/" ++ download_url_x ++ "/"
          ++ version ++ "/dmd." ++ version
      Except.ok (DlVal.urls (suffixes.map (fun suffix => download_url_base ++ suffix)))

/-- `get_dub_download_urls`: the single source-archive URL for the tag. -/
def get_dub_download_urls (version : String) : List String :=
  ["https://github.com/dlang/dub/archive/refs/tags/" ++ version ++ ".zip"]

/-- A GitHub release asset, as consumed by `get_ldc_download_urls`. -/
structure Asset where
  name : String
  browser_download_url : String
deriving DecidableEq, Repr

/-- The asset-selection loop of `get_ldc_download_urls`.  Note the Python
operator precedence in the Windows branch:
`"windows-x64" in name or ("win64" in name and is_64_bit)` — the `is_64_bit`
guard applies only to the `win64` pattern.  `download_asset or asset` keeps
an already-selected asset. -/
def select_ldc_asset (system : String) (is64 isArm : Bool) :
    List Asset → Option Asset → Option Asset
  | [], acc => acc
  | asset :: rest, acc =>
    let acc₁ :=
      if system = "Windows" then
        let acc₂ :=
          if strContains asset.name "windows-x64"
              ∨ (strContains asset.name "win64" ∧ is64) then some asset
          else acc
        if strContains asset.name "windows-x86" ∨ strContains asset.name "win32" then
          match acc₂ with
          | some a => some a
          | Option.none => some asset
        else acc₂
      else if system = "Darwin" then
        let acc₂ :=
          if strContains asset.name "osx-arm64" ∧ isArm then some asset else acc
        if strContains asset.name "osx-x86_64" ∧ ¬ isArm then some asset else acc₂
      else if system = "Linux" then
        let acc₂ :=
          if strContains asset.name "linux-arm" ∧ isArm then some asset else acc
        if strContains asset.name "linux-x86_64" ∧ ¬ isArm then some asset else acc₂
      else acc
    select_ldc_asset system is64 isArm rest acc₁

/-- `get_ldc_download_urls`: query the release-by-tag endpoint (modelled by
the response `status` and `assets`), return `[]` on a failed request, else
the selected asset's download URL or `[]` when nothing matched.  `isArm` is
`platform.machine().startswith("arm")`. -/
def get_ldc_download_urls (system : String) (is64 isArm : Bool)
    (status : Nat) (assets : List Asset) : List String :=
  if ¬ (200 ≤ status ∧ status < 300) then []
  else
    match select_ldc_asset system is64 isArm assets Option.none with
    | some a => [a.browser_download_url]
    | Option.none => []

/-- `get_app_download_urls(home, app, version, logger, nested)`.  The
`version == "latest" and not nested` branch evaluates the undefined name
`ogger` while building the arguments of `get_app_version_latest`, raising
`NameError` before any URL list can be produced.  The ldc release lookup is
supplied as `ldcStatus`/`ldcAssets`. -/
def get_app_download_urls (system : String) (is64 isArm : Bool)
    (ldcStatus : Nat) (ldcAssets : List Asset)
    (_home app version : String) (nested : Bool) : Except String DlVal :=
  if version = "latest" ∧ ¬ nested then
    Except.error "NameError: name ogger is not defined"
  else if app = "dmd" then get_dmd_download_urls system version
  else if app = "dub" then Except.ok (DlVal.urls (get_dub_download_urls version))
  else if app = "ldc" then
    Except.ok (DlVal.urls (get_ldc_download_urls system is64 isArm ldcStatus ldcAssets))
  else Except.ok (DlVal.urls [])

/-! ## Side conditions used in theorem statements -/

/-- A good path component: nonempty, slash-free, and not `"."`. -/
def goodComp (c : String) : Prop :=
  c ≠ "" ∧ ('/' ∉ c.data) ∧ c ≠ "."

/-- `home` is a normalized absolute path other than the bare root:
rebuilding it from its `commonpath` components yields it back. -/
structure NormHome (home : String) : Prop where
  eq : "/" ++ joinSep (comp home) = home
  ne_nil : comp home ≠ []

/-! ## Concrete fixtures for witnesses and counterexamples -/

/-- A network where only the second of three candidate URLs succeeds. -/
def netSecondOnly : Net := fun u =>
  if u = "http://b" then HttpResponse.mk 200 5
  else if u = "http://c" then HttpResponse.mk 200 7
  else HttpResponse.mk 404 0

/-- A paginated source returning 100, 100, then 37 entries. -/
def pages3 : Nat → List Nat := fun p =>
  if p = 1 then List.replicate 100 0
  else if p = 2 then List.replicate 100 1
  else if p = 3 then List.replicate 37 2
  else []

/-- The filesystem produced by activating dmd `2.100.0` on Linux starting
from `[("/h/programs/dmd-2.100.0", dir)]` (the repeated root entries come
from the `makedirs` recursion bottoming out on a map with no `/` entry;
duplicate keys after the first match are unobservable). -/
def fsAfterUseDmd : FS :=
  [("/h/lib/dmd", Node.symlink "/h/programs/dmd-2.100.0/dmd2/linux/lib"),
   ("/h/lib", Node.dir),
   ("/h/bin/dmd", Node.symlink "/h/programs/dmd-2.100.0/dmd2/linux/bin"),
   ("/h/bin", Node.dir), ("/h", Node.dir),
   ("/", Node.dir), ("/", Node.dir), ("/", Node.dir), ("/", Node.dir),
   ("/", Node.dir),
   ("/h/programs/dmd-2.100.0", Node.dir)]

/-- The filesystem produced by activating dmd with the slash-containing
version string `a/b` on Linux starting from
`[("/h/programs/dmd-a/b", dir)]`. -/
def fsAfterUseSlash : FS :=
  [("/h/lib/dmd", Node.symlink "/h/programs/dmd-a/b/dmd2/linux/lib"),
   ("/h/lib", Node.dir),
   ("/h/bin/dmd", Node.symlink "/h/programs/dmd-a/b/dmd2/linux/bin"),
   ("/h/bin", Node.dir), ("/h", Node.dir),
   ("/", Node.dir), ("/", Node.dir), ("/", Node.dir), ("/", Node.dir),
   ("/", Node.dir),
   ("/h/programs/dmd-a/b", Node.dir)]

/-! ## Basic string lemmas -/

theorem strData_append (a b : String) : (a ++ b).data = a.data ++ b.data := rfl

theorem strMk_data (s : String) : String.mk s.data = s := rfl

theorem strMk_data_eq (l : List Char) : (String.mk l).data = l := rfl

theorem strExt {a b : String} (h : a.data = b.data) : a = b := by
  cases a
  cases b
  exact congrArg String.mk h

theorem str_eq_empty_iff (s : String) : s = "" ↔ s.data = [] := by
  constructor
  · intro h
    rw [h]
  · intro h
    exact strExt h

theorem strLen_eq_data (s : String) : s.length = s.data.length := rfl

theorem isPrefixOf_append_self (l₁ l₂ : List Char) : l₁.isPrefixOf (l₁ ++ l₂) = true := by
  induction l₁ with
  | nil => simp [List.isPrefixOf]
  | cons c rest ih => simp [List.isPrefixOf, ih]

theorem strStartsWith_append_self (a b : String) : strStartsWith (a ++ b) a = true := by
  show (a.data).isPrefixOf (a ++ b).data = true
  rw [strData_append]
  exact isPrefixOf_append_self a.data b.data

theorem strStartsWith_slash_of_eq (s : String) (l : List Char)
    (h : s.data = '/' :: l) : strStartsWith s "/" = true := by
  show List.isPrefixOf ['/'] s.data = true
  rw [h]
  simp [List.isPrefixOf]

theorem strStartsWith_slash_of_ne (s : String) (c : Char) (l : List Char)
    (h : s.data = c :: l) (hc : c ≠ '/') : strStartsWith s "/" = false := by
  show List.isPrefixOf ['/'] s.data = false
  rw [h]
  simp [List.isPrefixOf]
  exact fun h' => hc h'.symm

theorem strEndsWith_slash_of_concat (s : String) (m : List Char) (c : Char)
    (h : s.data = m ++ [c]) (hc : c ≠ '/') : strEndsWith s "/" = false := by
  show List.isSuffixOf ['/'] s.data = false
  rw [List.isSuffixOf, h]
  simp [List.isPrefixOf]
  exact fun h' => hc h'.symm

theorem exists_concat_of_ne_nil {l : List Char} (h : l ≠ []) :
    ∃ m c, l = m ++ [c] := by
  rcases hr : l.reverse with _ | ⟨c, m⟩
  · exact absurd (by simpa using congrArg List.reverse hr) h
  · exact ⟨m.reverse, c, by
      have := congrArg List.reverse hr
      simpa using this⟩

theorem str_ne_empty_of_data {s : String} {c : Char} {l : List Char}
    (h : s.data = c :: l) : s ≠ "" := by
  intro he
  rw [he] at h
  exact List.noConfusion h

/-! ## `splitSlashChars` lemmas -/

theorem splitSlashChars_cons (c : Char) (rest : List Char) :
    splitSlashChars (c :: rest) =
      match splitSlashChars rest with
      | [] => [[]]
      | h :: t => if c = '/' then [] :: h :: t else (c :: h) :: t := rfl

theorem splitSlashChars_ne_nil (l : List Char) : splitSlashChars l ≠ [] := by
  cases l with
  | nil => simp [splitSlashChars]
  | cons c rest =>
    rw [splitSlashChars_cons]
    rcases splitSlashChars rest with _ | ⟨a, t⟩
    · simp
    · by_cases hc : c = '/' <;> simp [hc]

theorem splitSlashChars_append_slash (x y : List Char) :
    splitSlashChars (x ++ '/' :: y) = splitSlashChars x ++ splitSlashChars y := by
  induction x with
  | nil =>
    rw [List.nil_append, splitSlashChars_cons]
    rcases h : splitSlashChars y with _ | ⟨a, t⟩
    · exact absurd h (splitSlashChars_ne_nil y)
    · simp [splitSlashChars]
  | cons c x' ih =>
    rcases h : splitSlashChars x' with _ | ⟨a, t⟩
    · exact absurd h (splitSlashChars_ne_nil x')
    · rw [List.cons_append, splitSlashChars_cons, ih, h, splitSlashChars_cons, h]
      simp only [List.cons_append]
      by_cases hc : c = '/' <;> simp [hc]

theorem splitSlashChars_no_slash (l : List Char) (h : '/' ∉ l) :
    splitSlashChars l = [l] := by
  induction l with
  | nil => rfl
  | cons c rest ih =>
    have hc : c ≠ '/' := fun hc => h (by rw [hc]; exact List.mem_cons_self _ _)
    have hr : '/' ∉ rest := fun hm => h (List.mem_cons_of_mem _ hm)
    simp only [splitSlashChars, ih hr]
    simp [hc]

theorem splitSlashChars_mem_no_slash (l : List Char) :
    ∀ x ∈ splitSlashChars l, '/' ∉ x := by
  induction l with
  | nil => intro x hx; simp [splitSlashChars] at hx; simp [hx]
  | cons c rest ih =>
    intro x hx
    simp only [splitSlashChars] at hx
    rcases h : splitSlashChars rest with _ | ⟨a, t⟩
    · exact absurd h (splitSlashChars_ne_nil rest)
    · rw [h] at hx
      by_cases hc : c = '/'
      · simp [hc] at hx
        rcases hx with hx | hx | hx
        · simp [hx]
        · exact ih x (by rw [h, hx]; exact List.mem_cons_self _ _)
        · exact ih x (by rw [h]; exact List.mem_cons_of_mem _ hx)
      · simp [hc] at hx
        rcases hx with hx | hx
        · rw [hx]
          intro hm
          rcases List.mem_cons.mp hm with hm | hm
          · exact hc hm.symm
          · exact ih a (by rw [h]; exact List.mem_cons_self _ _) hm
        · exact ih x (by rw [h]; exact List.mem_cons_of_mem _ hx)

/-! ## `splitSlash`, `joinSep`, `comp` lemmas -/

theorem splitSlash_single (s : String) (h : '/' ∉ s.data) : splitSlash s = [s] := by
  unfold splitSlash
  rw [splitSlashChars_no_slash s.data h]
  simp [strMk_data]

theorem splitSlash_append_slash_str (a b : String) :
    splitSlash (a ++ "/" ++ b) = splitSlash a ++ splitSlash b := by
  unfold splitSlash
  have hd : (a ++ "/" ++ b).data = a.data ++ '/' :: b.data := by
    rw [strData_append, strData_append]
    have h1 : "/".data = ['/'] := rfl
    rw [h1, List.append_assoc]
    rfl
  rw [hd, splitSlashChars_append_slash, List.map_append]

theorem joinSep_cons (a : String) (l : List String) (h : l ≠ []) :
    joinSep (a :: l) = a ++ "/" ++ joinSep l := by
  cases l with
  | nil => exact absurd rfl h
  | cons b t => rfl

theorem joinSep_append (l₁ l₂ : List String) (h₁ : l₁ ≠ []) (h₂ : l₂ ≠ []) :
    joinSep (l₁ ++ l₂) = joinSep l₁ ++ "/" ++ joinSep l₂ := by
  induction l₁ with
  | nil => exact absurd rfl h₁
  | cons a t ih =>
    cases t with
    | nil =>
      rw [List.singleton_append, joinSep_cons a l₂ h₂]
      rfl
    | cons b t' =>
      rw [List.cons_append, joinSep_cons a ((b :: t') ++ l₂) (by simp),
        ih (by simp), joinSep_cons a (b :: t') (by simp)]
      simp [String.append_assoc]

theorem splitSlash_joinSep (l : List String) (hne : l ≠ [])
    (hg : ∀ c ∈ l, '/' ∉ c.data) : splitSlash (joinSep l) = l := by
  induction l with
  | nil => exact absurd rfl hne
  | cons a t ih =>
    cases t with
    | nil =>
      show splitSlash (joinSep [a]) = [a]
      exact splitSlash_single a (hg a (List.mem_cons_self _ _))
    | cons b t' =>
      rw [joinSep_cons a (b :: t') (by simp), splitSlash_append_slash_str,
        splitSlash_single a (hg a (List.mem_cons_self _ _)),
        ih (by simp) (fun c hc => hg c (List.mem_cons_of_mem _ hc))]
      rfl

theorem comp_data (s : String) :
    comp s = (splitSlash s).filter (fun c => c ≠ "" && c ≠ ".") := rfl

theorem comp_append_slash (a b : String) :
    comp (a ++ "/" ++ b) = comp a ++ comp b := by
  rw [comp_data, comp_data, comp_data, splitSlash_append_slash_str, List.filter_append]

theorem comp_single_good (c : String) (h : goodComp c) : comp c = [c] := by
  rw [comp_data, splitSlash_single c h.2.1]
  simp [List.filter, h.1, h.2.2]

theorem comp_joinSep_good (l : List String) (hne : l ≠ [])
    (hg : ∀ c ∈ l, goodComp c) : comp (joinSep l) = l := by
  induction l with
  | nil => exact absurd rfl hne
  | cons a t ih =>
    cases t with
    | nil => exact comp_single_good a (hg a (List.mem_cons_self _ _))
    | cons b t' =>
      rw [joinSep_cons a (b :: t') (by simp), comp_append_slash,
        comp_single_good a (hg a (List.mem_cons_self _ _)),
        ih (by simp) (fun c hc => hg c (List.mem_cons_of_mem _ hc))]
      rfl

theorem comp_mem_good (s : String) : ∀ c ∈ comp s, c ≠ "" ∧ c ≠ "." ∧ '/' ∉ c.data := by
  intro c hc
  rw [comp_data] at hc
  have hmem := List.mem_of_mem_filter hc
  have hfil := List.of_mem_filter hc
  simp only [Bool.and_eq_true, decide_eq_true_eq, ne_eq] at hfil
  refine ⟨by simpa using hfil.1, by simpa using hfil.2, ?_⟩
  unfold splitSlash at hmem
  rcases List.mem_map.mp hmem with ⟨x, hx, rfl⟩
  rw [strMk_data_eq]
  exact splitSlashChars_mem_no_slash s.data x hx

theorem joinSep_ne_empty (l : List String) (h : l ≠ []) (hg : ∀ c ∈ l, c ≠ "") :
    joinSep l ≠ "" := by
  cases l with
  | nil => exact absurd rfl h
  | cons a t =>
    cases t with
    | nil => exact hg a (List.mem_cons_self _ _)
    | cons b t' =>
      rw [joinSep_cons a (b :: t') (by simp)]
      intro he
      have : (a ++ "/" ++ joinSep (b :: t')).data = [] := (str_eq_empty_iff _).mp he
      rw [strData_append, strData_append] at this
      simp at this

theorem joinSep_ends_nonslash (l : List String) (hne : l ≠ [])
    (hg : ∀ c ∈ l, c ≠ "" ∧ '/' ∉ c.data) :
    ∃ m ch, (joinSep l).data = m ++ [ch] ∧ ch ≠ '/' := by
  induction l with
  | nil => exact absurd rfl hne
  | cons a t ih =>
    cases t with
    | nil =>
      have ha := hg a (List.mem_cons_self _ _)
      have hd : a.data ≠ [] := fun h => ha.1 ((str_eq_empty_iff a).mpr h)
      rcases exists_concat_of_ne_nil hd with ⟨m, c, hm⟩
      refine ⟨m, c, hm, ?_⟩
      intro hc
      exact ha.2 (by rw [hm, hc]; exact List.mem_append_right _ (List.mem_singleton_self _))
    | cons b t' =>
      rcases ih (by simp) (fun c hc => hg c (List.mem_cons_of_mem _ hc)) with ⟨m, ch, hm, hch⟩
      refine ⟨a.data ++ '/' :: m, ch, ?_, hch⟩
      rw [joinSep_cons a (b :: t') (by simp), strData_append, strData_append, hm]
      simp

/-! ## `commonPrefixList` lemmas -/

theorem commonPrefixList_self_append (l e : List String) :
    commonPrefixList l (l ++ e) = l := by
  induction l with
  | nil => cases e <;> rfl
  | cons a t ih =>
    rw [List.cons_append]
    unfold commonPrefixList
    simp [ih]

theorem commonPrefixList_prefix_left (l₁ l₂ : List String) :
    commonPrefixList l₁ l₂ <+: l₁ := by
  induction l₁ generalizing l₂ with
  | nil => cases l₂ <;> simp [commonPrefixList]
  | cons a t ih =>
    cases l₂ with
    | nil => simp [commonPrefixList]
    | cons b t₂ =>
      unfold commonPrefixList
      by_cases hab : a = b
      · subst hab
        simp only [if_pos rfl]
        exact (List.prefix_cons_inj a).mpr (ih t₂)
      · simp [hab]

theorem commonPrefixList_eq_left (l₁ l₂ : List String)
    (h : commonPrefixList l₁ l₂ = l₁) : l₁ <+: l₂ := by
  induction l₁ generalizing l₂ with
  | nil => simp
  | cons a t ih =>
    cases l₂ with
    | nil => simp [commonPrefixList] at h
    | cons b t₂ =>
      unfold commonPrefixList at h
      by_cases hab : a = b
      · rw [if_pos hab] at h
        have ht : commonPrefixList t t₂ = t := by
          injection h
        rw [hab]
        exact (List.prefix_cons_inj b).mpr (ih t₂ ht)
      · rw [if_neg hab] at h
        exact absurd h.symm (List.cons_ne_nil a t)

/-! ## `NormHome` facts -/

theorem NormHome.comp_good {home : String} (_h : NormHome home) :
    ∀ c ∈ comp home, goodComp c := by
  intro c hc
  rcases comp_mem_good home c hc with ⟨h1, h2, h3⟩
  exact ⟨h1, h3, h2⟩

theorem NormHome.data_eq {home : String} (h : NormHome home) :
    home.data = '/' :: (joinSep (comp home)).data := by
  conv_lhs => rw [← h.eq]
  rw [strData_append]
  rfl

theorem NormHome.ne_empty {home : String} (h : NormHome home) : home ≠ "" := by
  intro he
  have := h.data_eq
  rw [he] at this
  exact List.noConfusion this

theorem NormHome.startsSlash {home : String} (h : NormHome home) :
    strStartsWith home "/" = true :=
  strStartsWith_slash_of_eq home _ h.data_eq

theorem NormHome.notEndsSlash {home : String} (h : NormHome home) :
    strEndsWith home "/" = false := by
  rcases joinSep_ends_nonslash (comp home) h.ne_nil
    (fun c hc => ⟨(h.comp_good c hc).1, (h.comp_good c hc).2.1⟩) with ⟨m, ch, hm, hch⟩
  refine strEndsWith_slash_of_concat home ('/' :: m) ch ?_ hch
  rw [h.data_eq, hm]
  rfl

/-! ## `osJoin2` in the well-behaved case -/

theorem strStartsWith_false_of_good (b : String) (hb : b ≠ "") (hb2 : '/' ∉ b.data) :
    strStartsWith b "/" = false := by
  rcases hd : b.data with _ | ⟨c, l⟩
  · exact absurd ((str_eq_empty_iff b).mpr hd) hb
  · refine strStartsWith_slash_of_ne b c l hd ?_
    intro hc
    rw [hd, hc] at hb2
    exact hb2 (List.mem_cons_self _ _)

theorem osJoin2_eq (a b : String) (ha : a ≠ "") (ha2 : strEndsWith a "/" = false)
    (hb : strStartsWith b "/" = false) : osJoin2 a b = a ++ "/" ++ b := by
  unfold osJoin2
  rw [hb]
  simp [ha, ha2]

theorem append_slash_ne_empty (a b : String) : a ++ "/" ++ b ≠ "" := by
  intro he
  have : (a ++ "/" ++ b).data = [] := (str_eq_empty_iff _).mp he
  rw [strData_append, strData_append] at this
  simp at this

theorem append_slash_notEndsSlash (a b : String) (hb : b ≠ "") (hb2 : '/' ∉ b.data) :
    strEndsWith (a ++ "/" ++ b) "/" = false := by
  have hd : b.data ≠ [] := fun h => hb ((str_eq_empty_iff b).mpr h)
  rcases exists_concat_of_ne_nil hd with ⟨m, c, hm⟩
  have hc : c ≠ '/' := by
    intro hc
    rw [hm, hc] at hb2
    exact hb2 (List.mem_append_right _ (List.mem_singleton_self _))
  refine strEndsWith_slash_of_concat _ (a.data ++ '/' :: m) c ?_ hc
  rw [strData_append, strData_append, hm]
  have h1 : "/".data = ['/'] := rfl
  rw [h1]
  simp

/-- The canonical unfolding of `osJoin2` for a normalized-absolute left
argument and a good right component. -/
theorem osJoin2_good (a b : String) (ha : a ≠ "") (ha2 : strEndsWith a "/" = false)
    (hb : b ≠ "") (hb2 : '/' ∉ b.data) :
    osJoin2 a b = a ++ "/" ++ b :=
  osJoin2_eq a b ha ha2 (strStartsWith_false_of_good b hb hb2)

/-! ## take/drop helpers -/

theorem drop_len_succ_append (pre : List Char) (x : Char) (post : List Char) :
    (pre ++ x :: post).drop (1 + pre.length) = post := by
  induction pre with
  | nil => simp
  | cons c rest ih =>
    have : 1 + (c :: rest).length = (1 + rest.length) + 1 := by
      simp [List.length_cons]
      omega
    rw [this]
    simpa using ih

theorem take_len_succ_append (pre : List Char) (x : Char) (post : List Char) :
    (pre ++ x :: post).take (pre.length + 1) = pre ++ [x] := by
  induction pre with
  | nil => simp
  | cons c rest ih =>
    simp only [List.cons_append, List.length_cons]
    rw [List.take_succ_cons, ih]

/-! ## Filesystem map lemmas -/

theorem FS.find_cons_eq (k : String) (n : Node) (fs : FS) :
    FS.find ((k, n) :: fs) k = some n := by
  simp [FS.find]

theorem FS.find_cons_ne (k : String) (n : Node) (fs : FS) (p : String) (h : k ≠ p) :
    FS.find ((k, n) :: fs) p = FS.find fs p := by
  simp [FS.find, h]

theorem FS.find_removeKey_self (fs : FS) (p : String) :
    FS.find (FS.removeKey fs p) p = none := by
  induction fs with
  | nil => rfl
  | cons e rest ih =>
    rcases e with ⟨k, n⟩
    unfold FS.removeKey
    by_cases h : k = p
    · simpa [h] using ih
    · rw [if_neg h, FS.find_cons_ne k n _ p h]
      exact ih

theorem FS.find_removeKey_ne (fs : FS) (p q : String) (h : p ≠ q) :
    FS.find (FS.removeKey fs p) q = FS.find fs q := by
  induction fs with
  | nil => rfl
  | cons e rest ih =>
    rcases e with ⟨k, n⟩
    unfold FS.removeKey
    by_cases hk : k = p
    · rw [if_pos hk, ih, FS.find_cons_ne k n rest q (hk ▸ h)]
    · by_cases hq : k = q
      · rw [if_neg hk, hq, FS.find_cons_eq, FS.find_cons_eq]
      · rw [if_neg hk, FS.find_cons_ne k n _ q hq, FS.find_cons_ne k n rest q hq]
        exact ih

theorem FS.find_rmtree_of_none (fs : FS) (p k : String)
    (h : FS.find fs k = none) : FS.find (FS.rmtree fs p) k = none := by
  induction fs with
  | nil => rfl
  | cons e rest ih =>
    rcases e with ⟨q, n⟩
    unfold FS.rmtree
    by_cases hq : q = k
    · rw [hq, FS.find_cons_eq] at h
      exact Option.noConfusion h
    · rw [FS.find_cons_ne q n rest k hq] at h
      by_cases hrm : q = p ∨ strStartsWith q (p ++ "/") = true
      · simpa [hrm] using ih h
      · rw [if_neg hrm, FS.find_cons_ne q n _ k hq]
        exact ih h

/-! ## `dirname` lemmas -/

theorem lastSlashIdx_eq_none (l : List Char) :
    lastSlashIdx l = none ↔ '/' ∉ l := by
  induction l with
  | nil => simp [lastSlashIdx]
  | cons c rest ih =>
    unfold lastSlashIdx
    rcases h : lastSlashIdx rest with _ | j
    · have hr : '/' ∉ rest := ih.mp h
      by_cases hc : c = '/'
      · subst hc
        simp
      · simp only [if_neg hc]
        simp [hr]
        exact fun hcc => hc hcc.symm
    · have hr : '/' ∈ rest := by
        by_contra hm
        have hn := ih.mpr hm
        rw [h] at hn
        exact Option.noConfusion hn
      simp [hr]

theorem lastSlashIdx_spec (l : List Char) (i : Nat) (h : lastSlashIdx l = some i) :
    ∃ pre post, l = pre ++ '/' :: post ∧ pre.length = i ∧ '/' ∉ post := by
  induction l generalizing i with
  | nil => exact Option.noConfusion h
  | cons c rest ih =>
    unfold lastSlashIdx at h
    split at h
    · rename_i j hj
      rcases ih j hj with ⟨pre, post, hl, hlen, hpost⟩
      have hi : j + 1 = i := by injection h
      exact ⟨c :: pre, post, by rw [hl]; rfl, by simp [hlen, ← hi], hpost⟩
    · rename_i hnone
      by_cases hc : c = '/'
      · rw [if_pos hc] at h
        have hi : (0 : Nat) = i := by injection h
        subst hc
        exact ⟨[], rest, rfl, by simp [← hi], (lastSlashIdx_eq_none rest).mp hnone⟩
      · rw [if_neg hc] at h
        exact Option.noConfusion h

theorem dropTrailingSlashes_length_le (l : List Char) :
    (dropTrailingSlashes l).length ≤ l.length := by
  unfold dropTrailingSlashes
  have h1 : (l.reverse.dropWhile (fun c => c = '/')).length ≤ l.reverse.length :=
    (List.dropWhile_suffix _).length_le
  rw [List.length_reverse] at h1
  rw [List.length_reverse]
  exact h1

theorem dirnameChars_length_le (l : List Char) :
    (dirnameChars l).length ≤ l.length := by
  unfold dirnameChars
  rcases h : lastSlashIdx l with _ | i
  · simp
  · dsimp only
    have h2 : (l.take (i + 1)).length ≤ l.length := by
      rw [List.length_take]
      omega
    split
    · exact h2
    · have h1 := dropTrailingSlashes_length_le (l.take (i + 1))
      omega

theorem dirnameStr_length_le (s : String) : (dirnameStr s).length ≤ s.length := by
  rw [strLen_eq_data, strLen_eq_data]
  exact dirnameChars_length_le s.data

theorem dirnameChars_length_lt (l : List Char) (hs : '/' ∈ l)
    (hc : ∃ c ∈ l, c ≠ '/') : (dirnameChars l).length < l.length := by
  unfold dirnameChars
  rcases h : lastSlashIdx l with _ | i
  · exact absurd hs ((lastSlashIdx_eq_none l).mp h)
  · rcases lastSlashIdx_spec l i h with ⟨pre, post, hl, hlen, _⟩
    have htake : l.take (i + 1) = pre ++ ['/'] := by
      rw [hl, ← hlen]
      exact take_len_succ_append pre '/' post
    dsimp only
    rw [htake]
    have hlength : l.length = pre.length + 1 + post.length := by
      rw [hl]
      simp
      omega
    split
    · rename_i hall
      rcases hc with ⟨c, hcm, hcs⟩
      have hcpost : c ∈ post := by
        rw [hl] at hcm
        rcases List.mem_append.mp hcm with hm | hm
        · have hx := List.all_eq_true.mp hall c (List.mem_append_left _ hm)
          exact absurd (of_decide_eq_true hx) hcs
        · rcases List.mem_cons.mp hm with hm | hm
          · exact absurd hm hcs
          · exact hm
      have hpost : post ≠ [] := fun hp => by
        rw [hp] at hcpost
        exact List.not_mem_nil c hcpost
      have : 0 < post.length := List.length_pos.mpr hpost
      simp only [List.length_append, List.length_singleton]
      omega
    · have hdrop : dropTrailingSlashes (pre ++ ['/']) = dropTrailingSlashes pre := by
        unfold dropTrailingSlashes
        rw [List.reverse_append]
        simp [List.dropWhile]
      rw [hdrop]
      have := dropTrailingSlashes_length_le pre
      omega

theorem dirnameStr_length_lt (s : String) (hs : '/' ∈ s.data)
    (hc : ∃ c ∈ s.data, c ≠ '/') : (dirnameStr s).length < s.length := by
  rw [strLen_eq_data, strLen_eq_data]
  exact dirnameChars_length_lt s.data hs hc

/-! ## `makedirs` and `mkLink` structure -/

theorem makedirs_find_longer (fs : FS) (fuel : Nat) (p k : String)
    (h : p.length < k.length) :
    FS.find (makedirs fs fuel p) k = FS.find fs k := by
  induction fuel generalizing fs p with
  | zero =>
    unfold makedirs
    exact FS.find_cons_ne p Node.dir fs k (fun he => by simp [he] at h)
  | succ n ih =>
    unfold makedirs
    dsimp only
    rw [FS.find_cons_ne p Node.dir _ k (fun he => by simp [he] at h)]
    split
    · rename_i hcond
      exact ih fs (dirnameStr p) (lt_of_le_of_lt (dirnameStr_length_le p) h)
    · rfl

theorem mkLink_none_eq (fs : FS) (home sub app : String) :
    mkLink fs home sub app PyVal.none = Except.ok fs := rfl

theorem mkLink_bool_eq (fs : FS) (home sub app : String) (b : Bool) :
    mkLink fs home sub app (PyVal.bool b) =
      if b then Except.error "TypeError: symlink src must be string" else Except.ok fs := by
  cases b <;> rfl

theorem mkLink_str_ok (fs : FS) (home sub app s : String) (fs' : FS)
    (hs : s ≠ "") (h : mkLink fs home sub app (PyVal.str s) = Except.ok fs') :
    ∃ fsmid, fs' = (osJoin3 home sub app, Node.symlink s) :: fsmid
      ∧ ∀ k, (dirnameStr (osJoin3 home sub app)).length < k.length →
          FS.find fsmid k = FS.find fs k := by
  unfold mkLink at h
  have htr : PyVal.truthy (PyVal.str s) = true := by
    simp [PyVal.truthy, hs]
  rw [htr] at h
  simp only [Bool.not_true, Bool.false_eq_true, if_false] at h
  set lpath := osJoin3 home sub app with hlp
  set parent := dirnameStr lpath with hpar
  set fs₁ := if ¬ existsF fs parent then makedirs fs parent.length parent else fs with hfs₁
  by_cases hfound : (FS.find fs₁ lpath).isSome
  · rw [if_pos hfound] at h
    exact Except.noConfusion h
  · rw [if_neg hfound] at h
    refine ⟨fs₁, ?_, ?_⟩
    · injection h with h'
      exact h'.symm
    · intro k hk
      rw [hfs₁]
      split
      · exact makedirs_find_longer fs parent.length parent k hk
      · rfl

/-! ## Evaluating `get_active_version` -/

theorem data_append_slash (a b : String) :
    (a ++ "/" ++ b).data = a.data ++ '/' :: b.data := by
  rw [strData_append, strData_append]
  have h1 : "/".data = ['/'] := rfl
  rw [h1, List.append_assoc]
  rfl

theorem drop_len_succ_append' (pre : List Char) (x : Char) (post : List Char) :
    (pre ++ x :: post).drop (pre.length + 1) = post := by
  rw [Nat.add_comm]
  exact drop_len_succ_append pre x post

theorem av_data (app version : String) :
    (app ++ "-" ++ version).data = app.data ++ '-' :: version.data := by
  rw [strData_append, strData_append]
  have h1 : "-".data = ['-'] := rfl
  rw [h1, List.append_assoc]
  rfl

theorem av_goodComp (app version : String) (happ : '/' ∉ app.data)
    (hver : '/' ∉ version.data) : goodComp (app ++ "-" ++ version) := by
  refine ⟨?_, ?_, ?_⟩
  · intro h
    have hd := (str_eq_empty_iff _).mp h
    rw [av_data] at hd
    simp at hd
  · rw [av_data]
    intro hm
    rcases List.mem_append.mp hm with hm | hm
    · exact happ hm
    · rcases List.mem_cons.mp hm with hm | hm
      · exact absurd hm (by decide)
      · exact hver hm
  · intro h
    have hd := congrArg String.data h
    rw [av_data] at hd
    have hdot : ".".data = ['.'] := rfl
    rw [hdot] at hd
    rcases hap : app.data with _ | ⟨a, as⟩ <;> rw [hap] at hd <;> simp at hd

/-- Master lemma: a `bin/<app>` symlink whose target is
`home ++ "/" ++ "programs"/<app>-<version>/<good components>` makes
`get_active_version` report exactly `<version>`.  Note that nothing requires
the target to exist in `fs`: a dangling link reports the same version. -/
theorem get_active_of_good_link (fs : FS) (home app version : String)
    (comps : List String) (hh : NormHome home) (happ : '/' ∉ app.data)
    (hver : '/' ∉ version.data) (hcomps : ∀ c ∈ comps, goodComp c)
    (hfind : FS.find fs (osJoin3 home "bin" app) =
      some (Node.symlink
        (home ++ "/" ++ joinSep ("programs" :: (app ++ "-" ++ version) :: comps)))) :
    get_active_version fs home app = Except.ok (some version) := by
  set av := app ++ "-" ++ version with hav
  set s := joinSep ("programs" :: av :: comps) with hs
  set t := home ++ "/" ++ s with ht
  have hgoodAll : ∀ c ∈ ("programs" :: av :: comps), goodComp c := by
    intro c hc
    rcases List.mem_cons.mp hc with hc | hc
    · rw [hc]
      exact ⟨by decide, by decide, by decide⟩
    · rcases List.mem_cons.mp hc with hc | hc
      · rw [hc, hav]
        exact av_goodComp app version happ hver
      · exact hcomps c hc
  have htdata : t.data = home.data ++ '/' :: s.data := by
    rw [ht]
    exact data_append_slash home s
  have htabs : strStartsWith t "/" = true := by
    refine strStartsWith_slash_of_eq t ((joinSep (comp home)).data ++ '/' :: s.data) ?_
    rw [htdata, hh.data_eq]
    rfl
  have hct : comp t = comp home ++ ("programs" :: av :: comps) := by
    rw [ht, comp_append_slash, hs, comp_joinSep_good _ (by simp) hgoodAll]
  have hcp : commonpath2 home t = Except.ok home := by
    unfold commonpath2
    rw [hh.startsSlash, htabs, hct, commonPrefixList_self_append]
    simp [hh.eq]
  have hdrop : strDrop t (1 + home.length) = s := by
    unfold strDrop
    rw [strLen_eq_data, htdata, drop_len_succ_append]
  have hsplit : splitSlash s = "programs" :: av :: comps := by
    rw [hs]
    exact splitSlash_joinSep _ (by simp) (fun c hc => (hgoodAll c hc).2.1)
  have hstart : strStartsWith av (app ++ "-") = true := by
    rw [hav]
    exact strStartsWith_append_self (app ++ "-") version
  have hfin : strDrop av (app.length + 1) = version := by
    unfold strDrop
    rw [hav, av_data, strLen_eq_data, drop_len_succ_append']
  unfold get_active_version
  simp only [hfind, hcp]
  rw [if_neg (fun hne => hne rfl), hdrop, hsplit]
  dsimp only
  rw [if_neg (fun hne => hne rfl), hstart]
  simp [hfin]

/-- Master lemma: a `bin/<app>` symlink with an absolute target whose
components do not extend the components of `home` makes `get_active_version`
report "no active version". -/
theorem get_active_outside_none (fs : FS) (home app t : String)
    (hh : NormHome home) (ht : strStartsWith t "/" = true)
    (hpre : ¬ (comp home <+: comp t))
    (hfind : FS.find fs (osJoin3 home "bin" app) = some (Node.symlink t)) :
    get_active_version fs home app = Except.ok none := by
  set c := commonPrefixList (comp home) (comp t) with hc
  have hcm : commonpath2 home t = Except.ok ("/" ++ joinSep c) := by
    unfold commonpath2
    rw [hh.startsSlash, ht]
    simp [hc]
  have hcpre : c <+: comp home := commonPrefixList_prefix_left _ _
  have hcne : c ≠ comp home := by
    intro he
    rw [hc] at he
    exact hpre (commonPrefixList_eq_left _ _ he)
  have hneq : ("/" ++ joinSep c) ≠ home := by
    intro he
    rw [← hh.eq] at he
    have hjoin : joinSep c = joinSep (comp home) := by
      have hd := congrArg String.data he
      rw [strData_append, strData_append] at hd
      have h1 : "/".data = ['/'] := rfl
      rw [h1] at hd
      simp at hd
      exact strExt hd
    rcases hcpre with ⟨d, hd2⟩
    have hdne : d ≠ [] := by
      intro h0
      rw [h0, List.append_nil] at hd2
      exact hcne hd2
    by_cases hc0 : c = []
    · rw [hc0] at hd2 hjoin
      rw [List.nil_append] at hd2
      have hje : joinSep d ≠ "" := by
        refine joinSep_ne_empty d hdne ?_
        intro x hx
        exact (hh.comp_good x (by rw [← hd2]; exact hx)).1
      rw [← hd2] at hjoin
      exact hje hjoin.symm
    · rw [← hd2, joinSep_append c d hc0 hdne] at hjoin
      have hlen := congrArg (fun (x : String) => x.data.length) hjoin
      simp only [strData_append] at hlen
      simp only [List.length_append, List.length_singleton] at hlen
      omega
  unfold get_active_version
  simp only [hfind, hcm]
  rw [if_pos hneq]

/-! ## Claim C1 -/

/-- C1 counterexample: the claim says GetActive treats a *broken* `bin/<app>`
symlink as "no activation" and never raises.  Both parts fail on the code:
(1) a dangling link (its target `/h/programs/dmd-2.100.0` is not a key of the
map, i.e. the link is broken) whose target is inside the home root and
well-formed is reported as version `2.100.0`, not as `none`; and
(2) a broken link with a *relative* target makes `os.path.commonpath` raise
`ValueError` instead of returning `none`. -/
theorem getActive_broken_link_counterexample :
    get_active_version [("/h/bin/dmd", Node.symlink "/h/programs/dmd-2.100.0")]
        "/h" "dmd" = Except.ok (some "2.100.0")
    ∧ ∃ e, get_active_version [("/h/bin/dmd", Node.symlink "programs/dmd-1.0/bin")]
        "/h" "dmd" = Except.error e := by
  constructor
  · rfl
  · exact ⟨_, rfl⟩

/-- C1 (amended): `get_active_version` is a pure query (it takes the
filesystem and returns a value, mutating nothing) and returns `none` without
raising when `bin/<app>` is absent, is a regular file, or is a symlink whose
absolute target lies outside the normalized absolute home root (its
`commonpath` components do not extend `home`'s).  Whether a link is broken is
never checked: a dangling link is treated exactly like a live one, and a
relative-target link under an absolute home raises `ValueError`. -/
theorem getActive_anomalous_none (fs : FS) (home app : String) (hh : NormHome home)
    (hcase :
      FS.find fs (osJoin3 home "bin" app) = none
      ∨ FS.find fs (osJoin3 home "bin" app) = some Node.file
      ∨ ∃ t, FS.find fs (osJoin3 home "bin" app) = some (Node.symlink t)
          ∧ strStartsWith t "/" = true ∧ ¬ (comp home <+: comp t)) :
    get_active_version fs home app = Except.ok none := by
  rcases hcase with h | h | ⟨t, h, habs, hpre⟩
  · unfold get_active_version
    simp only [h]
  · unfold get_active_version
    simp only [h]
  · exact get_active_outside_none fs home app t hh habs hpre h

/-- Witness for C1's amended theorem at a concrete anomalous state: a foreign
symlink `bin/dmd → /usr/bin` under home `/h`. -/
theorem getActive_anomalous_none_witness :
    get_active_version [("/h/bin/dmd", Node.symlink "/usr/bin")] "/h" "dmd"
      = Except.ok none :=
  getActive_anomalous_none [("/h/bin/dmd", Node.symlink "/usr/bin")] "/h" "dmd"
    ⟨by decide, by decide⟩
    (Or.inr (Or.inr ⟨"/usr/bin", by decide, by decide⟩))

/-! ## Claim C9 -/

theorem islink_removeKey_self (fs : FS) (p : String) :
    islink (FS.removeKey fs p) p = false := by
  unfold islink
  rw [FS.find_removeKey_self]

theorem islink_removeKey_ne (fs : FS) (p q : String) (h : p ≠ q) :
    islink (FS.removeKey fs p) q = islink fs q := by
  unfold islink
  rw [FS.find_removeKey_ne fs p q h]

theorem unlink_if_islink_false (g : FS) (p : String) :
    islink (if islink g p = true then FS.removeKey g p else g) p = false := by
  by_cases h : islink g p = true
  · rw [if_pos h]
    exact islink_removeKey_self g p
  · rw [if_neg h]
    simpa using h

theorem disuse_islink_false (fs : FS) (home app : String) :
    islink (disuse_app fs home app).1 (osJoin3 home "bin" app) = false
    ∧ islink (disuse_app fs home app).1 (osJoin3 home "lib" app) = false := by
  unfold disuse_app
  dsimp only
  constructor
  · by_cases hbl : osJoin3 home "lib" app = osJoin3 home "bin" app
    · rw [← hbl]
      exact unlink_if_islink_false _ _
    · by_cases h2 : islink (if islink fs (osJoin3 home "bin" app) = true
          then FS.removeKey fs (osJoin3 home "bin" app) else fs)
          (osJoin3 home "lib" app) = true
      · rw [if_pos h2, islink_removeKey_ne _ _ _ hbl]
        exact unlink_if_islink_false _ _
      · rw [if_neg h2]
        exact unlink_if_islink_false _ _
  · exact unlink_if_islink_false _ _

/-- C9: `disuse_app` is idempotent and always succeeds (it is a total
function: no code path raises).  A second call leaves the filesystem exactly
as the first left it and reports that neither a `bin` nor a `lib` link was
unlinked; the first call's reports are exactly whether each link existed. -/
theorem disuse_app_idempotent (fs : FS) (home app : String) :
    disuse_app (disuse_app fs home app).1 home app
      = ((disuse_app fs home app).1, false, false) := by
  rcases disuse_islink_false fs home app with ⟨hb, hl⟩
  generalize hg : (disuse_app fs home app).1 = g at hb hl
  unfold disuse_app
  dsimp only
  rw [hb]
  simp only [Bool.false_eq_true, if_false]
  rw [hl]
  simp only [Bool.false_eq_true, if_false]

/-! ## Claim C8 -/

theorem FS.find_rmtree_self (fs : FS) (p k : String)
    (h : k = p ∨ strStartsWith k (p ++ "/") = true) :
    FS.find (FS.rmtree fs p) k = none := by
  induction fs with
  | nil => rfl
  | cons e rest ih =>
    rcases e with ⟨q, n⟩
    unfold FS.rmtree
    by_cases hq : q = p ∨ strStartsWith q (p ++ "/") = true
    · rw [if_pos hq]
      exact ih
    · rw [if_neg hq]
      have hqk : q ≠ k := by
        intro he
        rw [he] at hq
        exact hq h
      rw [FS.find_cons_ne q n _ k hqk]
      exact ih

theorem existsF_eq_false_of_find_none (fs : FS) (p : String)
    (h : FS.find fs p = none) : existsF fs p = false := by
  show existsFuel fs (fs.length + 1) p = false
  unfold existsFuel
  rw [h]

theorem get_active_none_of_find_none (fs : FS) (home app : String)
    (h : FS.find fs (osJoin3 home "bin" app) = none) :
    get_active_version fs home app = Except.ok none := by
  unfold get_active_version
  simp only [h]

theorem get_active_some_symlink (fs : FS) (home app version : String)
    (h : get_active_version fs home app = Except.ok (some version)) :
    ∃ t, FS.find fs (osJoin3 home "bin" app) = some (Node.symlink t) := by
  unfold get_active_version at h
  rcases hf : FS.find fs (osJoin3 home "bin" app) with _ | n
  · rw [hf] at h
    simp at h
  · cases n with
    | dir =>
      rw [hf] at h
      simp at h
    | file =>
      rw [hf] at h
      simp at h
    | symlink t => exact ⟨t, rfl⟩

theorem FS.find_removeKey_of_none (g : FS) (q k : String)
    (h : FS.find g k = none) : FS.find (FS.removeKey g q) k = none := by
  by_cases hqk : q = k
  · rw [hqk]
    exact FS.find_removeKey_self g k
  · rw [FS.find_removeKey_ne g q k hqk]
    exact h

theorem disuse_find_bin_none (fs : FS) (home app t : String)
    (h : FS.find fs (osJoin3 home "bin" app) = some (Node.symlink t)) :
    FS.find (disuse_app fs home app).1 (osJoin3 home "bin" app) = none := by
  unfold disuse_app
  dsimp only
  have hl : islink fs (osJoin3 home "bin" app) = true := by
    unfold islink
    rw [h]
  rw [if_pos hl]
  have h1 : FS.find (FS.removeKey fs (osJoin3 home "bin" app))
      (osJoin3 home "bin" app) = none := FS.find_removeKey_self fs _
  split
  · exact FS.find_removeKey_of_none _ _ _ h1
  · exact h1

/-- C8: a confirmed `diva_uninstall` of the currently active version first
removes the activation links (`disuse_app`) and then removes the installation
directory, so that afterwards `get_active_version` reports no active version,
the installation directory no longer exists, and the operation completes
without error, falling through to the implicit `None` return. -/
theorem uninstall_active_deactivates (fs : FS) (home app version : String)
    (hinst : existsF fs (get_install_path home app version) = true)
    (hactive : get_active_version fs home app = Except.ok (some version)) :
    ∃ fs', diva_uninstall fs home app version true = Except.ok (fs', Option.none)
      ∧ get_active_version fs' home app = Except.ok none
      ∧ existsF fs' (get_install_path home app version) = false := by
  rcases get_active_some_symlink fs home app version hactive with ⟨t, hfind⟩
  refine ⟨FS.rmtree (disuse_app fs home app).1 (get_install_path home app version),
    ?_, ?_, ?_⟩
  · unfold diva_uninstall
    rw [hinst]
    simp [hactive]
  · refine get_active_none_of_find_none _ home app ?_
    refine FS.find_rmtree_of_none _ _ _ ?_
    exact disuse_find_bin_none fs home app t hfind
  · refine existsF_eq_false_of_find_none _ _ ?_
    exact FS.find_rmtree_self _ _ _ (Or.inl rfl)

/-- Witness for C8 at a concrete state: dmd 2.0 installed and active. -/
theorem uninstall_active_deactivates_witness :
    ∃ fs', diva_uninstall
        [("/h/bin/dmd", Node.symlink "/h/programs/dmd-2.0/dmd2/linux/bin"),
         ("/h/programs/dmd-2.0", Node.dir)] "/h" "dmd" "2.0" true
        = Except.ok (fs', Option.none)
      ∧ get_active_version fs' "/h" "dmd" = Except.ok none
      ∧ existsF fs' (get_install_path "/h" "dmd" "2.0") = false :=
  uninstall_active_deactivates
    [("/h/bin/dmd", Node.symlink "/h/programs/dmd-2.0/dmd2/linux/bin"),
     ("/h/programs/dmd-2.0", Node.dir)] "/h" "dmd" "2.0" rfl rfl

/-! ## Claim C4 -/

/-- C4: download semantics.  (1) An individual attempt counts as successful
(`download_file` truthy, i.e. nonzero) iff the HTTP status is in 200..299 and
at least one byte is written.  (2) When the candidate loop of `diva_install`
reports a success, the winning URL is the first succeeding candidate: every
candidate before it failed, the requested list is exactly the prefix up to
and including the winner, and later candidates are never requested.  (3) When
every candidate fails the loop requests all of them and returns the failure
result (`none`, which `diva_install` maps to the return code 1) instead of
raising. -/
theorem download_fallback_correct :
    (∀ (net : Net) (url : String),
      download_file net url ≠ 0 ↔
        (200 ≤ (net url).status ∧ (net url).status < 300 ∧ 1 ≤ (net url).body))
    ∧ (∀ (net : Net) (urls tried : List String) (u : String) (n : Nat),
        attempt_downloads net urls = (tried, some (u, n)) →
          ∃ pre post, urls = pre ++ u :: post ∧ tried = pre ++ [u]
            ∧ (∀ v ∈ pre, download_file net v = 0)
            ∧ download_file net u = n ∧ n ≠ 0)
    ∧ (∀ (net : Net) (urls : List String),
        (∀ u ∈ urls, download_file net u = 0) →
          attempt_downloads net urls = (urls, Option.none)) := by
  refine ⟨?_, ?_, ?_⟩
  · intro net url
    unfold download_file
    by_cases h : 200 ≤ (net url).status ∧ (net url).status < 300
    · rw [if_neg (by simpa using h)]
      constructor
      · intro hb
        exact ⟨h.1, h.2, by omega⟩
      · intro hc
        omega
    · rw [if_pos h]
      constructor
      · intro hb
        exact absurd rfl hb
      · intro hc
        exact absurd ⟨hc.1, hc.2.1⟩ h
  · intro net urls
    induction urls with
    | nil =>
      intro tried u n h
      simp [attempt_downloads] at h
    | cons a rest ih =>
      intro tried u n h
      unfold attempt_downloads at h
      by_cases ha : download_file net a ≠ 0
      · rw [if_pos ha] at h
        injection h with h1 h2
        injection h2 with h2
        injection h2 with hu hn
        refine ⟨[], rest, ?_, ?_, ?_, ?_, ?_⟩
        · rw [hu]
          rfl
        · rw [← h1, hu]
          simp
        · intro v hv
          exact absurd hv (List.not_mem_nil v)
        · rw [← hu]
          exact hn
        · rw [← hn]
          exact ha
      · rw [if_neg ha] at h
        injection h with h1 h2
        rcases ih (attempt_downloads net rest).1 u n (by rw [← h2]) with
          ⟨pre, post, h3, h4, h5, h6, h7⟩
        refine ⟨a :: pre, post, ?_, ?_, ?_, h6, h7⟩
        · rw [List.cons_append, ← h3]
        · rw [← h1, List.cons_append, ← h4]
        · intro v hv
          rcases List.mem_cons.mp hv with hv | hv
          · rw [hv]
            simpa using ha
          · exact h5 v hv
  · intro net urls hall
    induction urls with
    | nil => rfl
    | cons a rest ih =>
      unfold attempt_downloads
      rw [if_neg (by simpa using hall a (List.mem_cons_self _ _))]
      rw [ih (fun v hv => hall v (List.mem_cons_of_mem _ hv))]

/-- Witness for C4 at the three-candidate scenario where only the second
candidate succeeds: the download comes from the second URL, the requested
list is exactly the first two URLs, and the third is never requested. -/
theorem download_fallback_witness :
    attempt_downloads netSecondOnly ["http://a", "http://b", "http://c"]
        = (["http://a", "http://b"], some ("http://b", 5))
    ∧ ∃ pre post, ["http://a", "http://b", "http://c"] = pre ++ "http://b" :: post
        ∧ ["http://a", "http://b"] = pre ++ ["http://b"]
        ∧ (∀ v ∈ pre, download_file netSecondOnly v = 0)
        ∧ download_file netSecondOnly "http://b" = 5 ∧ (5 : Nat) ≠ 0 := by
  refine ⟨rfl, ?_⟩
  exact download_fallback_correct.2.1 netSecondOnly
    ["http://a", "http://b", "http://c"] ["http://a", "http://b"] "http://b" 5 rfl

/-! ## Claim C7 -/

theorem github_list_aux {α : Type} (pages : Nat → List α) :
    ∀ (n s : Nat), (∀ i, s ≤ i → i < s + n → 100 ≤ (pages i).length) →
      (pages (s + n)).length < 100 →
      get_github_list pages (n + 1) s
        = (List.range' s (n + 1), ((List.range' s (n + 1)).map pages).flatten) := by
  intro n
  induction n with
  | zero =>
    intro s _ hshort
    unfold get_github_list
    rw [if_pos (by simpa using hshort)]
    simp [List.range']
  | succ m ih =>
    intro s hbig hshort
    unfold get_github_list
    have hs : ¬ (pages s).length < 100 := by
      have := hbig s le_rfl (by omega)
      omega
    rw [if_neg hs]
    have hshort' : (pages (s + 1 + m)).length < 100 := by
      have he : s + 1 + m = s + (m + 1) := by omega
      rw [he]
      exact hshort
    rw [ih (s + 1) (fun i h1 h2 => hbig i (by omega) (by omega)) hshort']
    have hr : List.range' s (m + 1 + 1) = s :: List.range' (s + 1) (m + 1) :=
      List.range'_succ s (m + 1) 1
    rw [hr]
    simp

/-- C7: `get_github_list` requests pages of size 100 starting at page 1 and
stops exactly at the first page returning fewer than 100 entries.  If pages
`1..K-1` are full (≥ 100 entries) and page `K` is short, the loop requests
exactly the pages `1..K` and returns the concatenation of their entries, in
order. -/
theorem github_list_pagination {α : Type} (pages : Nat → List α) (K : Nat)
    (hK : 1 ≤ K)
    (hbig : ∀ i, 1 ≤ i → i < K → 100 ≤ (pages i).length)
    (hshort : (pages K).length < 100) :
    get_github_list pages K 1
      = (List.range' 1 K, ((List.range' 1 K).map pages).flatten) := by
  rcases K with _ | n
  · omega
  · refine github_list_aux pages n 1 (fun i h1 h2 => hbig i h1 (by omega)) ?_
    have he : 1 + n = n + 1 := by omega
    rw [he]
    exact hshort

set_option maxRecDepth 4000 in
/-- Witness for C7: a source returning 100, 100, then 37 entries yields
exactly the three page requests `[1, 2, 3]` and 237 entries. -/
theorem github_list_pagination_witness :
    get_github_list pages3 3 1
        = (List.range' 1 3, ((List.range' 1 3).map pages3).flatten)
    ∧ (get_github_list pages3 3 1).1 = [1, 2, 3]
    ∧ (get_github_list pages3 3 1).2.length = 237 := by
  have h := github_list_pagination pages3 3 (by omega)
    (by
      intro i h1 h2
      have hi : i = 1 ∨ i = 2 := by omega
      rcases hi with hi | hi <;> simp [hi, pages3])
    (by simp [pages3])
  refine ⟨h, ?_, ?_⟩
  · rw [h]
    rfl
  · rw [h]
    decide

/-! ## Claim C10 -/

/-- C10: calling `get_app_download_urls` with version `"latest"` and
`nested=False` evaluates the undefined name `ogger` (line 570 of the source)
while building the arguments for the latest-version lookup, so the call
raises `NameError` for every application before producing any URL list: the
internal latest-resolution branch can never return normally. -/
theorem latest_branch_raises (system : String) (is64 isArm : Bool)
    (st : Nat) (assets : List Asset) (home app : String) :
    get_app_download_urls system is64 isArm st assets home app "latest" false
      = Except.error "NameError: name ogger is not defined" := by
  unfold get_app_download_urls
  rw [if_pos ⟨rfl, by simp⟩]

/-! ## Claim C5 -/

/-- C5: on a `0.x`-era dmd tree containing `dmd/bin` (and `dmd/lib`), the
layout resolver returns the *booleans* produced by `os.path.exists` — not
the `dmd/bin` and `dmd/lib` directory paths that the spec (and the
function's own docstring, "Try to find binary and library paths") describe.
The claimed result would be
`(PyVal.str ".../dmd/bin", PyVal.str ".../dmd/lib")`. -/
theorem dmd_0x_layout_returns_booleans :
    get_dmd_installation_paths
      [("/h/programs/dmd-0.176", Node.dir),
       ("/h/programs/dmd-0.176/dmd/bin", Node.dir),
       ("/h/programs/dmd-0.176/dmd/lib", Node.dir)]
      "Linux" true "/h" "dmd" "0.176" "/h/programs/dmd-0.176"
      = (PyVal.bool true, PyVal.bool true) := rfl

/-! ## Claim C6 -/

/-- C6: on a 32-bit Windows host (`is64 = false`), the asset-selection loop
still selects the `windows-x64` asset in preference to the `windows-x86` one:
the Python condition
`"windows-x64" in name or "win64" in name and is_64_bit` applies the
`is_64_bit` guard only to the `win64` pattern, so the claimed
"64-bit preferred only on 64-bit hosts" ordering fails and the returned
candidate list is the 64-bit URL instead of the 32-bit one. -/
theorem ldc_selects_x64_on_32bit_host :
    get_ldc_download_urls "Windows" false false 200
      [Asset.mk "ldc2-1.30.0-windows-x64.7z" "https://example.org/x64.7z",
       Asset.mk "ldc2-1.30.0-windows-x86.7z" "https://example.org/x86.7z"]
      = ["https://example.org/x64.7z"] := rfl

/-! ## Claim C3 -/

/-- C3 counterexample: for application dmd on a host platform with no known
distribution convention, `get_app_download_urls` does not return an empty
sequence: `get_dmd_url_suffixes` executes `raise None`, which raises
`TypeError` (and even its dead fallback path would return the integer 1, not
a sequence). -/
theorem dmd_unsupported_platform_raises :
    get_app_download_urls "Amiga" true false 200 [] "/h" "dmd" "2.100.0" false
      = Except.error "TypeError: exceptions must derive from BaseException" := rfl

theorem select_ldc_asset_unsupported (system : String) (is64 isArm : Bool)
    (h1 : system ≠ "Windows") (h2 : system ≠ "Darwin") (h3 : system ≠ "Linux") :
    ∀ (assets : List Asset) (acc : Option Asset),
      select_ldc_asset system is64 isArm assets acc = acc := by
  intro assets
  induction assets with
  | nil =>
    intro acc
    rfl
  | cons a rest ih =>
    intro acc
    unfold select_ldc_asset
    rw [if_neg h1, if_neg h2, if_neg h3]
    exact ih acc

/-- C3 (amended): on a host platform with no known distribution convention
(an OS other than Windows, Darwin, Linux), the behaviour differs per
application: for ldc the candidate list is the empty sequence, returned
normally; for dmd the call raises a `TypeError` (the source's `raise None`);
and for dub the (platform-independent) single source-archive URL is returned
regardless of the platform. -/
theorem unsupported_platform_amended (system version : String)
    (h1 : system ≠ "Windows") (h2 : system ≠ "Darwin") (h3 : system ≠ "Linux") :
    (∀ (is64 isArm : Bool) (st : Nat) (assets : List Asset),
        get_ldc_download_urls system is64 isArm st assets = [])
    ∧ (∃ e, get_dmd_download_urls system version = Except.error e)
    ∧ get_dub_download_urls version
        = ["https://github.com/dlang/dub/archive/refs/tags/" ++ version ++ ".zip"] := by
  refine ⟨?_, ?_, rfl⟩
  · intro is64 isArm st assets
    unfold get_ldc_download_urls
    by_cases hst : 200 ≤ st ∧ st < 300
    · rw [if_neg (by simpa using hst)]
      rw [select_ldc_asset_unsupported system is64 isArm h1 h2 h3 assets Option.none]
    · rw [if_pos hst]
  · refine ⟨"TypeError: exceptions must derive from BaseException", ?_⟩
    unfold get_dmd_download_urls get_dmd_url_suffixes
    rw [if_neg h1, if_neg h2, if_neg h3]

/-- Witness for C3's amended theorem at the concrete platform `"Amiga"`. -/
theorem unsupported_platform_amended_witness :
    (∀ (is64 isArm : Bool) (st : Nat) (assets : List Asset),
        get_ldc_download_urls "Amiga" is64 isArm st assets = [])
    ∧ (∃ e, get_dmd_download_urls "Amiga" "2.100.0" = Except.error e)
    ∧ get_dub_download_urls "2.100.0"
        = ["https://github.com/dlang/dub/archive/refs/tags/" ++ "2.100.0" ++ ".zip"] :=
  unsupported_platform_amended "Amiga" "2.100.0" (by decide) (by decide) (by decide)

/-! ## Claim C2: path shape infrastructure -/

theorem install_path_eq (home app version : String) (hh : NormHome home)
    (happ : app ≠ "" ∧ '/' ∉ app.data) (hver : '/' ∉ version.data) :
    get_install_path home app version
      = (home ++ "/" ++ "programs") ++ "/" ++ (app ++ "-" ++ version) := by
  have hav := av_goodComp app version happ.2 hver
  have h1 : osJoin2 home "programs" = home ++ "/" ++ "programs" :=
    osJoin2_good home "programs" hh.ne_empty hh.notEndsSlash (by decide) (by decide)
  have h2 : osJoin2 (home ++ "/" ++ "programs") (app ++ "-" ++ version)
      = (home ++ "/" ++ "programs") ++ "/" ++ (app ++ "-" ++ version) :=
    osJoin2_good _ _ (append_slash_ne_empty _ _)
      (append_slash_notEndsSlash home "programs" (by decide) (by decide))
      hav.1 hav.2.1
  unfold get_install_path osJoin3
  rw [h1, h2]

theorem install_path_ne_empty (home app version : String) (hh : NormHome home)
    (happ : app ≠ "" ∧ '/' ∉ app.data) (hver : '/' ∉ version.data) :
    get_install_path home app version ≠ "" := by
  rw [install_path_eq home app version hh happ hver]
  exact append_slash_ne_empty _ _

theorem install_path_notEndsSlash (home app version : String) (hh : NormHome home)
    (happ : app ≠ "" ∧ '/' ∉ app.data) (hver : '/' ∉ version.data) :
    strEndsWith (get_install_path home app version) "/" = false := by
  have hav := av_goodComp app version happ.2 hver
  rw [install_path_eq home app version hh happ hver]
  exact append_slash_notEndsSlash _ _ hav.1 hav.2.1

theorem binKey_eq (home app : String) (hh : NormHome home)
    (happ : app ≠ "" ∧ '/' ∉ app.data) :
    osJoin3 home "bin" app = (home ++ "/" ++ "bin") ++ "/" ++ app := by
  unfold osJoin3
  rw [osJoin2_good home "bin" hh.ne_empty hh.notEndsSlash (by decide) (by decide),
    osJoin2_good _ app (append_slash_ne_empty _ _)
      (append_slash_notEndsSlash home "bin" (by decide) (by decide))
      happ.1 happ.2]

theorem libKey_eq (home app : String) (hh : NormHome home)
    (happ : app ≠ "" ∧ '/' ∉ app.data) :
    osJoin3 home "lib" app = (home ++ "/" ++ "lib") ++ "/" ++ app := by
  unfold osJoin3
  rw [osJoin2_good home "lib" hh.ne_empty hh.notEndsSlash (by decide) (by decide),
    osJoin2_good _ app (append_slash_ne_empty _ _)
      (append_slash_notEndsSlash home "lib" (by decide) (by decide))
      happ.1 happ.2]

theorem libKey_ne_binKey (home app : String) (hh : NormHome home)
    (happ : app ≠ "" ∧ '/' ∉ app.data) :
    osJoin3 home "lib" app ≠ osJoin3 home "bin" app := by
  rw [binKey_eq home app hh happ, libKey_eq home app hh happ]
  intro he
  have hd := congrArg String.data he
  rw [data_append_slash, data_append_slash, data_append_slash, data_append_slash] at hd
  rw [List.append_assoc, List.append_assoc] at hd
  have hd2 := List.append_cancel_left hd
  have hlib : "lib".data = ['l', 'i', 'b'] := rfl
  have hbin : "bin".data = ['b', 'i', 'n'] := rfl
  rw [hlib, hbin] at hd2
  simp at hd2

theorem key_data_eq (home x app : String) :
    ((home ++ "/" ++ x) ++ "/" ++ app).data
      = home.data ++ '/' :: (x.data ++ '/' :: app.data) := by
  rw [data_append_slash, data_append_slash, List.append_assoc]
  rfl

theorem key_length_eq (home app : String) :
    (osJoin3 home "lib" app).length = (osJoin3 home "bin" app).length
      ∨ ¬ (NormHome home ∧ app ≠ "" ∧ '/' ∉ app.data) := by
  by_cases h : NormHome home ∧ app ≠ "" ∧ '/' ∉ app.data
  · left
    rw [binKey_eq home app h.1 h.2, libKey_eq home app h.1 h.2,
      strLen_eq_data, strLen_eq_data, key_data_eq, key_data_eq]
    simp
  · right
    exact h

theorem libKey_dirname_lt (home app : String) (hh : NormHome home)
    (happ : app ≠ "" ∧ '/' ∉ app.data) :
    (dirnameStr (osJoin3 home "lib" app)).length < (osJoin3 home "bin" app).length := by
  have hlen : (osJoin3 home "lib" app).length = (osJoin3 home "bin" app).length := by
    rcases key_length_eq home app with h | h
    · exact h
    · exact absurd ⟨hh, happ⟩ h
  have hdata : (osJoin3 home "lib" app).data
      = home.data ++ '/' :: ("lib".data ++ '/' :: app.data) := by
    rw [libKey_eq home app hh happ]
    exact key_data_eq home "lib" app
  have hslash : '/' ∈ (osJoin3 home "lib" app).data := by
    rw [hdata]
    exact List.mem_append_right _ (List.mem_cons_self _ _)
  have hnonslash : ∃ c ∈ (osJoin3 home "lib" app).data, c ≠ '/' := by
    refine ⟨'l', ?_, by decide⟩
    rw [hdata]
    refine List.mem_append_right _ (List.mem_cons_of_mem _ ?_)
    exact List.mem_append_left _ (by decide)
  have := dirnameStr_length_lt (osJoin3 home "lib" app) hslash hnonslash
  omega

theorem mkLink_str_empty (fs : FS) (home sub app : String) :
    mkLink fs home sub app (PyVal.str "") = Except.ok fs := rfl

/-- When a link-creation step succeeds, lookups at any other path whose
length exceeds the parent directory's survive unchanged. -/
theorem mkLink_ok_find_ne (fs fs' : FS) (home sub app : String) (v : PyVal)
    (k : String) (h : mkLink fs home sub app v = Except.ok fs')
    (hne : osJoin3 home sub app ≠ k)
    (hlen : (dirnameStr (osJoin3 home sub app)).length < k.length) :
    FS.find fs' k = FS.find fs k := by
  cases v with
  | none =>
    rw [mkLink_none_eq] at h
    injection h with h'
    rw [← h']
  | bool b =>
    cases b
    · rw [mkLink_bool_eq] at h
      simp at h
      rw [h]
    · rw [mkLink_bool_eq] at h
      simp at h
  | str s =>
    by_cases hs : s = ""
    · subst hs
      rw [mkLink_str_empty] at h
      injection h with h'
      rw [← h']
    · rcases mkLink_str_ok fs home sub app s fs' hs h with ⟨fsmid, heq, hpres⟩
      rw [heq, FS.find_cons_ne _ _ _ _ hne]
      exact hpres k hlen

theorem goodComp_of (c : String) (h1 : c ≠ "") (h2 : '/' ∉ c.data) (h3 : c ≠ ".") :
    goodComp c := ⟨h1, h2, h3⟩

theorem childName_good (p k n : String) (h : childName p k = some n) :
    n ≠ "" ∧ ('/' ∉ n.data) ∧ n ≠ "." ∧ n ≠ ".." := by
  unfold childName at h
  split at h
  · split at h
    · rename_i hcond
      injection h with h'
      rw [← h']
      exact hcond
    · exact Option.noConfusion h
  · exact Option.noConfusion h

theorem firstSubdir_good (fs : FS) (p n : String) (h : firstSubdir fs p = some n) :
    n ≠ "" ∧ ('/' ∉ n.data) ∧ n ≠ "." ∧ n ≠ ".." := by
  induction fs with
  | nil => exact Option.noConfusion h
  | cons e rest ih =>
    rcases e with ⟨k, nd⟩
    cases nd with
    | dir =>
      unfold firstSubdir at h
      rcases hc : childName p k with _ | m
      · rw [hc] at h
        exact ih h
      · rw [hc] at h
        injection h with h'
        rw [← h']
        exact childName_good p k m hc
    | file =>
      unfold firstSubdir at h
      exact ih h
    | symlink t =>
      unfold firstSubdir at h
      exact ih h

theorem osJoin2_chain2 (x e b : String) (hxne : x ≠ "")
    (hxns : strEndsWith x "/" = false) (he : goodComp e) (hb : goodComp b) :
    osJoin2 (osJoin2 x e) b = x ++ "/" ++ (e ++ "/" ++ b) := by
  rw [osJoin2_good x e hxne hxns he.1 he.2.1,
    osJoin2_good _ b (append_slash_ne_empty _ _)
      (append_slash_notEndsSlash x e he.1 he.2.1) hb.1 hb.2.1]
  simp only [String.append_assoc]

theorem install_append_joinSep (home app version : String) (hh : NormHome home)
    (happ : app ≠ "" ∧ '/' ∉ app.data) (hver : '/' ∉ version.data)
    (comps : List String) (hcne : comps ≠ []) :
    get_install_path home app version ++ "/" ++ joinSep comps
      = home ++ "/" ++ joinSep ("programs" :: (app ++ "-" ++ version) :: comps) := by
  rw [install_path_eq home app version hh happ hver,
    joinSep_cons "programs" _ (by simp),
    joinSep_cons (app ++ "-" ++ version) comps hcne]
  simp only [String.append_assoc]

/-- Layout shape for dmd on a supported host: either the `0.x` branch fires
and reports the boolean `True` as "binary path", or the binary path is a
string of good components under the installation root. -/
theorem dmd_binary_shape (fs : FS) (system : String) (is64 : Bool)
    (home version : String) (hh : NormHome home) (hver : '/' ∉ version.data)
    (hsys : system = "Windows" ∨ system = "Darwin" ∨ system = "Linux") :
    (get_dmd_installation_paths fs system is64 home "dmd" version
        (get_install_path home "dmd" version)).1 = PyVal.bool true
    ∨ ∃ comps, (∀ c ∈ comps, goodComp c) ∧ comps ≠ [] ∧
        (get_dmd_installation_paths fs system is64 home "dmd" version
          (get_install_path home "dmd" version)).1
          = PyVal.str (get_install_path home "dmd" version ++ "/" ++ joinSep comps) := by
  have happ : ("dmd" : String) ≠ "" ∧ '/' ∉ "dmd".data := ⟨by decide, by decide⟩
  have hipne := install_path_ne_empty home "dmd" version hh happ hver
  have hipns := install_path_notEndsSlash home "dmd" version hh happ hver
  unfold get_dmd_installation_paths
  by_cases h0 : existsF fs (osJoin2 (get_install_path home "dmd" version) "dmd/bin") = true
  · rw [if_pos h0]
    left
    dsimp only
    rw [h0]
  · rw [if_neg h0]
    right
    dsimp only
    obtain ⟨d, hdg, hrooteq⟩ :
        ∃ d, goodComp d ∧
          (if existsF fs (osJoin2 (get_install_path home "dmd" version) "dmd") = true
            then osJoin2 (get_install_path home "dmd" version) "dmd"
            else osJoin2 (get_install_path home "dmd" version) "dmd2")
          = get_install_path home "dmd" version ++ "/" ++ d := by
      by_cases hr : existsF fs (osJoin2 (get_install_path home "dmd" version) "dmd") = true
      · exact ⟨"dmd", goodComp_of _ (by decide) (by decide) (by decide),
          by rw [if_pos hr, osJoin2_good _ "dmd" hipne hipns (by decide) (by decide)]⟩
      · exact ⟨"dmd2", goodComp_of _ (by decide) (by decide) (by decide),
          by rw [if_neg hr, osJoin2_good _ "dmd2" hipne hipns (by decide) (by decide)]⟩
    rw [hrooteq]
    obtain ⟨sysd, hsg, hseq⟩ :
        ∃ sysd, goodComp sysd ∧
          (if system = "Windows"
            then some (osJoin2 (get_install_path home "dmd" version ++ "/" ++ d) "windows")
            else if system = "Darwin"
              then some (osJoin2 (get_install_path home "dmd" version ++ "/" ++ d) "osx")
              else if system = "Linux"
                then some (osJoin2 (get_install_path home "dmd" version ++ "/" ++ d) "linux")
                else Option.none)
          = some (osJoin2 (get_install_path home "dmd" version ++ "/" ++ d) sysd) := by
      rcases hsys with h | h | h
      · exact ⟨"windows", goodComp_of _ (by decide) (by decide) (by decide),
          by rw [if_pos h]⟩
      · refine ⟨"osx", goodComp_of _ (by decide) (by decide) (by decide), ?_⟩
        have hnw : system ≠ "Windows" := by
          rw [h]
          decide
        rw [if_neg hnw, if_pos h]
      · refine ⟨"linux", goodComp_of _ (by decide) (by decide) (by decide), ?_⟩
        have hnw : system ≠ "Windows" := by
          rw [h]
          decide
        have hnd : system ≠ "Darwin" := by
          rw [h]
          decide
        rw [if_neg hnw, if_neg hnd, if_pos h]
    rw [hseq]
    dsimp only
    have hrootne : get_install_path home "dmd" version ++ "/" ++ d ≠ "" :=
      append_slash_ne_empty _ _
    have hrootns : strEndsWith (get_install_path home "dmd" version ++ "/" ++ d) "/"
        = false := append_slash_notEndsSlash _ d hdg.1 hdg.2.1
    obtain ⟨bdir, hbg, hbeq⟩ :
        ∃ bdir, goodComp bdir ∧
          (if is64 = true
              ∧ existsF fs (osJoin2 (osJoin2 (get_install_path home "dmd" version
                ++ "/" ++ d) sysd) "bin64") = true
            then osJoin2 (osJoin2 (get_install_path home "dmd" version ++ "/" ++ d)
              sysd) "bin64"
            else if existsF fs (osJoin2 (osJoin2 (get_install_path home "dmd" version
                ++ "/" ++ d) sysd) "bin32") = true
              then osJoin2 (osJoin2 (get_install_path home "dmd" version ++ "/" ++ d)
                sysd) "bin32"
              else osJoin2 (osJoin2 (get_install_path home "dmd" version ++ "/" ++ d)
                sysd) "bin")
          = osJoin2 (osJoin2 (get_install_path home "dmd" version ++ "/" ++ d) sysd)
              bdir := by
      by_cases h64 : is64 = true ∧ existsF fs (osJoin2 (osJoin2
          (get_install_path home "dmd" version ++ "/" ++ d) sysd) "bin64") = true
      · exact ⟨"bin64", goodComp_of _ (by decide) (by decide) (by decide),
          by rw [if_pos h64]⟩
      · by_cases h32 : existsF fs (osJoin2 (osJoin2
            (get_install_path home "dmd" version ++ "/" ++ d) sysd) "bin32") = true
        · exact ⟨"bin32", goodComp_of _ (by decide) (by decide) (by decide),
            by rw [if_neg h64, if_pos h32]⟩
        · exact ⟨"bin", goodComp_of _ (by decide) (by decide) (by decide),
            by rw [if_neg h64, if_neg h32]⟩
    rw [hbeq, osJoin2_chain2 _ sysd bdir hrootne hrootns hsg hbg]
    refine ⟨[d, sysd, bdir], ?_, by simp, ?_⟩
    · intro c hc
      rcases List.mem_cons.mp hc with hc | hc
      · rw [hc]
        exact hdg
      · rcases List.mem_cons.mp hc with hc | hc
        · rw [hc]
          exact hsg
        · rcases List.mem_cons.mp hc with hc | hc
          · rw [hc]
            exact hbg
          · exact absurd hc (List.not_mem_nil c)
    · show PyVal.str _ = PyVal.str _
      congr 1
      show get_install_path home "dmd" version ++ "/" ++ d ++ "/" ++ (sysd ++ "/" ++ bdir)
        = get_install_path home "dmd" version ++ "/" ++ (d ++ "/" ++ (sysd ++ "/" ++ bdir))
      simp only [String.append_assoc]

/-- Layout shape for dub: binary path under the installation root (first
extracted subdirectory, else the root, then `bin`); no library path. -/
theorem dub_paths_shape (fs : FS) (home version ip : String) (hh : NormHome home)
    (hver : '/' ∉ version.data) :
    ∃ comps, (∀ c ∈ comps, goodComp c) ∧ comps ≠ [] ∧
      get_dub_installation_paths fs home "dub" version ip
        = (PyVal.str (get_install_path home "dub" version ++ "/" ++ joinSep comps),
           PyVal.none) := by
  have happ : ("dub" : String) ≠ "" ∧ '/' ∉ "dub".data := ⟨by decide, by decide⟩
  have hipne := install_path_ne_empty home "dub" version hh happ hver
  have hipns := install_path_notEndsSlash home "dub" version hh happ hver
  unfold get_dub_installation_paths
  rcases hfs : firstSubdir fs (get_install_path home "dub" version) with _ | n
  · refine ⟨["bin"], ?_, by simp, ?_⟩
    · intro c hc
      rcases List.mem_cons.mp hc with hc | hc
      · rw [hc]
        exact goodComp_of _ (by decide) (by decide) (by decide)
      · exact absurd hc (List.not_mem_nil c)
    · dsimp only
      simp only [hfs]
      rw [osJoin2_good _ "bin" hipne hipns (by decide) (by decide)]
      rfl
  · rcases firstSubdir_good fs _ n hfs with ⟨hn1, hn2, hn3, _⟩
    have hng : goodComp n := ⟨hn1, hn2, hn3⟩
    refine ⟨[n, "bin"], ?_, by simp, ?_⟩
    · intro c hc
      rcases List.mem_cons.mp hc with hc | hc
      · rw [hc]
        exact hng
      · rcases List.mem_cons.mp hc with hc | hc
        · rw [hc]
          exact goodComp_of _ (by decide) (by decide) (by decide)
        · exact absurd hc (List.not_mem_nil c)
    · dsimp only
      simp only [hfs]
      rw [osJoin2_chain2 _ n "bin" hipne hipns hng
        (goodComp_of _ (by decide) (by decide) (by decide))]
      rfl

/-- Layout shape for ldc: binary path under the installation root; the
library value is whatever string the same resolution yields (its exact value
does not matter for the round trip). -/
theorem ldc_binary_shape (fs : FS) (home version ip : String) (hh : NormHome home)
    (hver : '/' ∉ version.data) :
    ∃ comps, (∀ c ∈ comps, goodComp c) ∧ comps ≠ [] ∧
      (get_ldc_installation_paths fs home "ldc" version ip).1
        = PyVal.str (get_install_path home "ldc" version ++ "/" ++ joinSep comps) := by
  have happ : ("ldc" : String) ≠ "" ∧ '/' ∉ "ldc".data := ⟨by decide, by decide⟩
  have hipne := install_path_ne_empty home "ldc" version hh happ hver
  have hipns := install_path_notEndsSlash home "ldc" version hh happ hver
  unfold get_ldc_installation_paths
  rcases hfs : firstSubdir fs (get_install_path home "ldc" version) with _ | n
  · refine ⟨["bin"], ?_, by simp, ?_⟩
    · intro c hc
      rcases List.mem_cons.mp hc with hc | hc
      · rw [hc]
        exact goodComp_of _ (by decide) (by decide) (by decide)
      · exact absurd hc (List.not_mem_nil c)
    · dsimp only
      simp only [hfs]
      rw [osJoin2_good _ "bin" hipne hipns (by decide) (by decide)]
      rfl
  · rcases firstSubdir_good fs _ n hfs with ⟨hn1, hn2, hn3, _⟩
    have hng : goodComp n := ⟨hn1, hn2, hn3⟩
    refine ⟨[n, "bin"], ?_, by simp, ?_⟩
    · intro c hc
      rcases List.mem_cons.mp hc with hc | hc
      · rw [hc]
        exact hng
      · rcases List.mem_cons.mp hc with hc | hc
        · rw [hc]
          exact goodComp_of _ (by decide) (by decide) (by decide)
        · exact absurd hc (List.not_mem_nil c)
    · dsimp only
      simp only [hfs]
      rw [osJoin2_chain2 _ n "bin" hipne hipns hng
        (goodComp_of _ (by decide) (by decide) (by decide))]
      rfl

/-- Core of the round trip: once the `bin` link is created on a target of the
canonical good shape and the `lib` link step succeeds on whatever value the
resolver produced, `get_active_version` reads back exactly the version. -/
theorem roundtrip_core (fs₁ fs₂ fs₃ : FS) (home app version : String)
    (comps : List String) (lp : PyVal) (hh : NormHome home)
    (happ : app ≠ "" ∧ '/' ∉ app.data) (hver : '/' ∉ version.data)
    (hcomps : ∀ c ∈ comps, goodComp c)
    (hmk1 : mkLink fs₁ home "bin" app
        (PyVal.str (home ++ "/" ++ joinSep ("programs" :: (app ++ "-" ++ version) :: comps)))
        = Except.ok fs₂)
    (hmk2 : mkLink fs₂ home "lib" app lp = Except.ok fs₃) :
    get_active_version fs₃ home app = Except.ok (some version) := by
  have hX : home ++ "/" ++ joinSep ("programs" :: (app ++ "-" ++ version) :: comps) ≠ "" :=
    append_slash_ne_empty _ _
  rcases mkLink_str_ok _ _ _ _ _ _ hX hmk1 with ⟨fsmid, heq2, _⟩
  have hfind3 : FS.find fs₃ (osJoin3 home "bin" app)
      = some (Node.symlink
        (home ++ "/" ++ joinSep ("programs" :: (app ++ "-" ++ version) :: comps))) := by
    rw [mkLink_ok_find_ne fs₂ fs₃ home "lib" app lp _ hmk2
      (libKey_ne_binKey home app hh happ) (libKey_dirname_lt home app hh happ)]
    rw [heq2]
    exact FS.find_cons_eq _ _ _
  exact get_active_of_good_link fs₃ home app version comps hh happ.2 hver hcomps hfind3

/-- C2 counterexample: the claim fails as stated.  (1) On a host platform
with no dmd layout convention (here `"Plan9"`), activating an existing dmd
installation "succeeds" (`use_app_version` returns `True`) while creating no
links at all, after which `get_active_version` reports `none`, not the
activated version.  (2) A version string containing a path separator
(`"a/b"`) activates successfully on Linux, but `get_active_version` then
reports `"a"` instead of `"a/b"`. -/
theorem activation_roundtrip_counterexample :
    (use_app_version [("/h/programs/dmd-2.0", Node.dir)] "Plan9" true "/h" "dmd" "2.0"
        = Except.ok ([("/h/programs/dmd-2.0", Node.dir)], true)
      ∧ get_active_version [("/h/programs/dmd-2.0", Node.dir)] "/h" "dmd"
        = Except.ok none)
    ∧ (use_app_version [("/h/programs/dmd-a/b", Node.dir)] "Linux" true "/h" "dmd" "a/b"
        = Except.ok (fsAfterUseSlash, true)
      ∧ get_active_version fsAfterUseSlash "/h" "dmd" = Except.ok (some "a")) :=
  ⟨⟨rfl, rfl⟩, ⟨rfl, rfl⟩⟩

/-- C2 (amended): for every application in the managed set, on a supported
host platform (Windows, Darwin, or Linux), with a normalized absolute home
and a version string containing no path separator, a *successful* activation
(`use_app_version` returning `True` without raising — the path taken both by
`diva use` and by `diva install` without the inactive flag) leaves
`get_active_version` reporting exactly the activated version. -/
theorem activation_roundtrip (fs fs' : FS) (system : String) (is64 : Bool)
    (home app version : String)
    (hh : NormHome home) (happ : app ∈ DIVA_APPS)
    (hsys : system = "Windows" ∨ system = "Darwin" ∨ system = "Linux")
    (hver : '/' ∉ version.data)
    (hrun : use_app_version fs system is64 home app version = Except.ok (fs', true)) :
    get_active_version fs' home app = Except.ok (some version) := by
  unfold use_app_version at hrun
  by_cases hex : existsF fs (get_install_path home app version) = true
  swap
  · rw [if_pos (by simpa using hex)] at hrun
    injection hrun with h'
    injection h' with h1 h2
    exact Bool.noConfusion h2
  rw [if_neg (by simpa using hex)] at hrun
  rcases hmk1 : mkLink (disuse_app fs home app).1 home "bin" app
      (get_app_installation_paths fs system is64 home app version
        (get_install_path home app version)).1 with e | fs₂
  · rw [hmk1] at hrun
    exact Except.noConfusion hrun
  simp only [hmk1] at hrun
  rcases hmk2 : mkLink fs₂ home "lib" app
      (get_app_installation_paths fs system is64 home app version
        (get_install_path home app version)).2 with e | fs₃
  · rw [hmk2] at hrun
    exact Except.noConfusion hrun
  simp only [hmk2] at hrun
  injection hrun with h'
  injection h' with h1 h2
  rw [← h1]
  have happ3 : app = "dmd" ∨ app = "ldc" ∨ app = "dub" := by
    simpa [DIVA_APPS] using happ
  rcases happ3 with ha | ha | ha
  · subst ha
    have hpaths : get_app_installation_paths fs system is64 home "dmd" version
        (get_install_path home "dmd" version)
        = get_dmd_installation_paths fs system is64 home "dmd" version
          (get_install_path home "dmd" version) := by
      unfold get_app_installation_paths
      rw [if_pos rfl]
    rcases dmd_binary_shape fs system is64 home version hh hver hsys with
      hbool | ⟨comps, hcg, hcne, hstr⟩
    · rw [hpaths, hbool, mkLink_bool_eq] at hmk1
      simp at hmk1
    · rw [hpaths, hstr,
        install_append_joinSep home "dmd" version hh ⟨by decide, by decide⟩ hver
          comps hcne] at hmk1
      exact roundtrip_core _ fs₂ fs₃ home "dmd" version comps _ hh
        ⟨by decide, by decide⟩ hver hcg hmk1 hmk2
  · subst ha
    have hpaths : get_app_installation_paths fs system is64 home "ldc" version
        (get_install_path home "ldc" version)
        = get_ldc_installation_paths fs home "ldc" version
          (get_install_path home "ldc" version) := by
      unfold get_app_installation_paths
      rw [if_neg (by decide), if_neg (by decide), if_pos rfl]
    rcases ldc_binary_shape fs home version (get_install_path home "ldc" version)
        hh hver with ⟨comps, hcg, hcne, hstr⟩
    rw [hpaths, hstr,
      install_append_joinSep home "ldc" version hh ⟨by decide, by decide⟩ hver
        comps hcne] at hmk1
    exact roundtrip_core _ fs₂ fs₃ home "ldc" version comps _ hh
      ⟨by decide, by decide⟩ hver hcg hmk1 hmk2
  · subst ha
    have hpaths : get_app_installation_paths fs system is64 home "dub" version
        (get_install_path home "dub" version)
        = get_dub_installation_paths fs home "dub" version
          (get_install_path home "dub" version) := by
      unfold get_app_installation_paths
      rw [if_neg (by decide), if_pos rfl]
    rcases dub_paths_shape fs home version (get_install_path home "dub" version)
        hh hver with ⟨comps, hcg, hcne, hpair⟩
    have hstr : (get_dub_installation_paths fs home "dub" version
        (get_install_path home "dub" version)).1
        = PyVal.str (get_install_path home "dub" version ++ "/" ++ joinSep comps) := by
      rw [hpair]
    rw [hpaths, hstr,
      install_append_joinSep home "dub" version hh ⟨by decide, by decide⟩ hver
        comps hcne] at hmk1
    exact roundtrip_core _ fs₂ fs₃ home "dub" version comps _ hh
      ⟨by decide, by decide⟩ hver hcg hmk1 hmk2

/-- Witness for C2's amended theorem: activating dmd `2.100.0` on Linux from
a state containing only the installation directory yields a state in which
`get_active_version` reports `2.100.0`. -/
theorem activation_roundtrip_witness :
    get_active_version fsAfterUseDmd "/h" "dmd" = Except.ok (some "2.100.0") :=
  activation_roundtrip [("/h/programs/dmd-2.100.0", Node.dir)] fsAfterUseDmd
    "Linux" true "/h" "dmd" "2.100.0" ⟨by decide, by decide⟩ (by decide)
    (Or.inr (Or.inr rfl)) (by decide) rfl

end Diva
